import Mathlib

/-!
Shallow embedding of `geo_clustering.py` (region balancing for Recife ITBI data)
and verification of the frozen claims about it.

Conventions of the embedding:
* Python `dict`s are association lists with unique keys; `d[k] = v` keeps the
  position of an existing key and replaces its value, otherwise appends.
* `pandas.Series` of counts are association lists `List (String × Nat)`.
* Python's stable `sorted` is modelled by `List.insertionSort`, which is stable.
* String normalisation helpers (`.lower()`, `.strip()`, lexicographic `<`) are
  re-implemented on character lists so that the kernel can evaluate them;
  lowercasing is ASCII-only (all names exercised by the claims are ASCII).
* External libraries are oracles: `difflib.SequenceMatcher.ratio` is an
  abstract function into `ℚ`, `unicodedata` normalisation of `_normalize` is an
  abstract `String → String`, and the shapely-based `_build_adjacency` result
  is an abstract adjacency table.
-/

namespace GeoClustering

/-- Python `dict.get(k)`: the value of the first (unique) entry with key `k`. -/
def dictGet? {α : Type} (d : List (String × α)) (k : String) : Option α :=
  (d.find? (fun p => p.1 == k)).map (·.2)

/-- Python `d[k] = v` on a `dict`: if the key is present, its value is replaced
in place (the key keeps its insertion position); otherwise the binding is
appended at the end. -/
def dictSet {α : Type} (d : List (String × α)) (k : String) (v : α) : List (String × α) :=
  if d.any (fun p => p.1 == k) then d.map (fun p => if p.1 == k then (k, v) else p)
  else d ++ [(k, v)]

/-- Python `d.setdefault(k, []).append(v)`. -/
def dictAppend (d : List (String × List String)) (k : String) (v : String) :
    List (String × List String) :=
  if d.any (fun p => p.1 == k) then d.map (fun p => if p.1 == k then (p.1, p.2 ++ [v]) else p)
  else d ++ [(k, [v])]

/-- ASCII-only embedding of Python `str.lower()`. -/
def lowerStr (s : String) : String := ⟨s.data.map Char.toLower⟩

/-- Embedding of Python `str.strip()`: drop leading and trailing whitespace. -/
def trimStr (s : String) : String :=
  ⟨((s.data.dropWhile Char.isWhitespace).reverse.dropWhile Char.isWhitespace).reverse⟩

/-- Lexicographic (code-point) strict comparison of character lists, as Python
compares strings. -/
def strLtChars : List Char → List Char → Bool
  | [], [] => false
  | [], _ :: _ => true
  | _ :: _, [] => false
  | x :: xs, y :: ys => if x < y then true else if y < x then false else strLtChars xs ys

/-- Python `a < b` on strings. -/
def strLtB (a b : String) : Bool := strLtChars a.data b.data

/-- Python `a <= b` on strings. -/
def strLeB (a b : String) : Bool := strLtB a b || a == b

/-- Region labels, embedding `f"região: {name.strip().lower()}"`. -/
def region_label (name : String) : String := "região: " ++ lowerStr (trimStr name)

/-- Per-unit transaction counts (`counts_by_unit`, a pandas Series). -/
abbrev Counts := List (String × Nat)

/-- Unit adjacency table (`adjacency : Dict[int, List[int]]`). -/
abbrev Adjacency := List (Nat × List Nat)

/-- Name-to-id table (`id_by_name : Dict[str, int]`). -/
abbrev IdByName := List (String × Nat)

/-- `int(counts_by_unit.get(name, 0))`. -/
def countOf (counts : Counts) (name : String) : Nat := (dictGet? counts name).getD 0

/-- `adjacency.get(uid, [])`. -/
def adjOf (adj : Adjacency) (uid : Nat) : List Nat :=
  ((adj.find? (fun p => p.1 == uid)).map (·.2)).getD []

/-- `id_by_name.get(name)`. -/
def idOf (m : IdByName) (name : String) : Option Nat := dictGet? m name

/-- Embedding of `_name_by_id`: linear scan over `id_by_name.items()` returning
the first name mapped to `uid`, else the decimal string of the id. -/
def name_by_id (uid : Nat) (m : IdByName) : String :=
  match m.find? (fun p => p.2 == uid) with
  | some p => p.1
  | none => toString uid

/-- Stable ascending sort of unit ids by their own transaction count, embedding
`sorted(ids, key=lambda nid: counts_by_unit.get(_name_by_id(nid, id_by_name), 0))`. -/
def sortByCount (counts : Counts) (m : IdByName) (ids : List Nat) : List Nat :=
  List.insertionSort
    (fun a b => countOf counts (name_by_id a m) ≤ countOf counts (name_by_id b m)) ids

/-- Embedding of `counts_by_unit.sort_values(ascending=True).index.tolist()`
(stable ascending sort of the Series by value, then the index). -/
def sort_values_index (counts : Counts) : List String :=
  (List.insertionSort (fun a b : String × Nat => a.2 ≤ b.2) counts).map (·.1)

/-- State of the frontier-growth loop of `_balanced_merge` (lines 259-277):
the running total, the frontier queue, the visited set, the global assigned
set and the member list `current` of the region under construction.  The
region labels stored in the Python `assigned` dict are never read, so
`assigned` is modelled as the set (list) of assigned unit ids. -/
structure GrowState where
  total : Nat
  frontier : List Nat
  visited : List Nat
  assigned : List Nat
  current : List Nat
deriving DecidableEq, Repr

/-- One iteration of the `while total < min_tx_per_region and frontier:` body:
pop the head of the frontier; if it is visited or assigned, just mark it
visited; otherwise add it to the region and extend the frontier with its
count-sorted unvisited, unassigned neighbours. -/
def growStep (counts : Counts) (adj : Adjacency) (m : IdByName) (s : GrowState) : GrowState :=
  match s.frontier with
  | [] => s
  | nid :: rest =>
    if s.visited.contains nid || s.assigned.contains nid then
      { s with frontier := rest, visited := nid :: s.visited }
    else
      let visited := nid :: s.visited
      let assigned := nid :: s.assigned
      let neighs := (adjOf adj nid).filter (fun x => !visited.contains x && !assigned.contains x)
      { total := s.total + countOf counts (name_by_id nid m),
        frontier := rest ++ sortByCount counts m neighs,
        visited := visited,
        assigned := assigned,
        current := s.current ++ [nid] }

/-- The growth loop itself.  `fuel` only bounds the number of iterations; the
caller passes a fuel that dominates every possible run (each frontier pop
consumes either an initial frontier slot or a slot of some adjacency list,
and each adjacency list is appended at most once). -/
def growLoop (counts : Counts) (adj : Adjacency) (m : IdByName) (min_tx : Nat) :
    Nat → GrowState → GrowState
  | 0, s => s
  | fuel + 1, s =>
    if s.total < min_tx ∧ s.frontier ≠ [] then
      growLoop counts adj m min_tx fuel (growStep counts adj m s)
    else s

/-- Total length of all adjacency lists; used to bound the growth loop. -/
def adjSize (adj : Adjacency) : Nat := (adj.map (fun p => p.2.length)).sum

/-- Total length of the adjacency lists of units not yet visited.  Together
with the frontier length it is a strictly decreasing potential of the growth
loop, which proves that the fuel `frontier.length + adjSize adj + 1` passed
by `greedy_unit` is never exhausted, i.e. the fuelled `growLoop` computes the
same result as the unbounded Python `while` loop. -/
def unvisitedAdjSize (adj : Adjacency) (visited : List Nat) : Nat :=
  ((adj.filter (fun p => !visited.contains p.1)).map (fun p => p.2.length)).sum

/-- Accumulator of `_balanced_merge`: the assigned ids and the `regions` dict. -/
structure MergeAcc where
  assigned : List Nat
  regions : List (String × List Nat)
deriving DecidableEq, Repr

/-- The initial `GrowState` that `_balanced_merge` sets up for a fresh seed
(lines 254-263): `current = [unit_id]`, the seed marked assigned, the running
total seeded with the unit's own count, and the frontier being the seed's
neighbours sorted ascending by count. -/
def grow_start (counts : Counts) (adj : Adjacency) (m : IdByName)
    (assigned0 : List Nat) (uid : Nat) (unit_name : String) : GrowState :=
  { total := countOf counts unit_name,
    frontier := sortByCount counts m (adjOf adj uid),
    visited := [uid],
    assigned := uid :: assigned0,
    current := [uid] }

/-- Body of the main `for unit_name in units_sorted:` loop of `_balanced_merge`
(lines 249-279): skip names without an id or with an already-assigned id,
otherwise grow a region from the seed and seal it under its label. -/
def greedy_unit (counts : Counts) (adj : Adjacency) (m : IdByName) (min_tx : Nat)
    (acc : MergeAcc) (unit_name : String) : MergeAcc :=
  match idOf m unit_name with
  | none => acc
  | some uid =>
    if acc.assigned.contains uid then acc
    else
      let s0 := grow_start counts adj m acc.assigned uid unit_name
      let s1 := growLoop counts adj m min_tx (s0.frontier.length + adjSize adj + 1) s0
      { assigned := s1.assigned,
        regions := dictSet acc.regions (region_label unit_name) s1.current }

/-- The greedy flood-fill phase of `_balanced_merge` (everything before the
straggler pass at line 281). -/
def greedy_phase (counts : Counts) (adj : Adjacency) (m : IdByName) (min_tx : Nat) : MergeAcc :=
  (sort_values_index counts).foldl (greedy_unit counts adj m min_tx) ⟨[], []⟩

/-- `sum(counts_by_unit.get(_name_by_id(x, id_by_name), 0) for x in uids)`. -/
def region_total (counts : Counts) (m : IdByName) (uids : List Nat) : Nat :=
  (uids.map (fun x => countOf counts (name_by_id x m))).sum

/-- The `best_region, best_total` selection of the straggler pass (lines
283-287): first region (in creation order) with the strictly smallest
recomputed total, or `none` when no region exists. -/
def chooseBest (counts : Counts) (m : IdByName) (regions : List (String × List Nat)) :
    Option (String × Nat) :=
  regions.foldl
    (fun best p =>
      match best with
      | none => some (p.1, region_total counts m p.2)
      | some (bl, bt) =>
        if region_total counts m p.2 < bt then some (p.1, region_total counts m p.2)
        else some (bl, bt))
    none

/-- One iteration of the straggler loop (lines 282-295). -/
def straggler_step (counts : Counts) (m : IdByName) (acc : MergeAcc) (uid : Nat) : MergeAcc :=
  match chooseBest counts m acc.regions with
  | none =>
    { assigned := uid :: acc.assigned,
      regions := dictSet acc.regions (region_label (name_by_id uid m)) [uid] }
  | some (best, _) =>
    { assigned := uid :: acc.assigned,
      regions := acc.regions.map (fun p => if p.1 == best then (p.1, p.2 ++ [uid]) else p) }

/-- The straggler pass of `_balanced_merge` (lines 281-295): `remaining` is
computed once, then each remaining unit is folded through `straggler_step`. -/
def straggler_phase (counts : Counts) (m : IdByName) (acc : MergeAcc) : MergeAcc :=
  ((m.map (·.2)).filter (fun uid => !acc.assigned.contains uid)).foldl
    (straggler_step counts m) acc

/-- The dict comprehension `{v: k for k, v in id_by_name.items()}` of line 297:
for a duplicated value the LAST name wins (later dict entries overwrite). -/
def name_by_id_last (m : IdByName) (uid : Nat) : Option String :=
  (m.reverse.find? (fun p => p.2 == uid)).map (·.1)

/-- The output construction of `_balanced_merge` (lines 298-304): walk the
regions in creation order and map each member's (last) name to the region
label, skipping ids without a name and empty names (`if uname:`). -/
def build_out (m : IdByName) (regions : List (String × List Nat)) : List (String × String) :=
  regions.foldl
    (fun out p =>
      p.2.foldl
        (fun out uid =>
          match name_by_id_last m uid with
          | some uname => if uname == "" then out else dictSet out uname p.1
          | none => out)
        out)
    []

/-- `_balanced_merge` up to (and including) the straggler pass: the final
assigned set and regions dict. -/
def balanced_merge_acc (counts : Counts) (adj : Adjacency) (m : IdByName) (min_tx : Nat) :
    MergeAcc :=
  straggler_phase counts m (greedy_phase counts adj m min_tx)

/-- Embedding of `_balanced_merge`: the returned name-to-region-label dict. -/
def balanced_merge (counts : Counts) (adj : Adjacency) (m : IdByName) (min_tx : Nat) :
    List (String × String) :=
  build_out m (balanced_merge_acc counts adj m min_tx).regions

/-- The hard-coded `synonyms` dict of `_map_bairro_to_official` (lines 201-208). -/
def synonyms : List (String × String) :=
  [("BOA VIAGEM", "BOA VIAGEM"), ("CASA FORTE", "CASA FORTE"),
   ("GRAÇAS", "GRACAS"), ("GRACAS", "GRACAS"),
   ("SÃO JOSÉ", "SAO JOSE"), ("SAO JOSE", "SAO JOSE")]

/-- The `if manual and b_norm in manual` test of line 212: Python treats `None`
and the empty dict as falsy. -/
def manualHit (manual : Option (List (String × String))) (bn : String) : Option String :=
  match manual with
  | none => none
  | some mm => if mm.isEmpty then none else dictGet? mm bn

/-- Python tuple comparison `(score, word) < (score', word')`. -/
def pairLtB (a b : ℚ × String) : Bool :=
  decide (a.1 < b.1) || (decide (a.1 = b.1) && strLtB a.2 b.2)

/-- Embedding of `difflib.get_close_matches(word, possibilities, n, cutoff)`.
The float-valued `SequenceMatcher.ratio` is supplied as an exact-rational
oracle `sim`; the `real_quick_ratio`/`quick_ratio` pre-filters of difflib are
upper bounds of `ratio`, so the filter is equivalent to `cutoff <= ratio`.
`heapq.nlargest(n, result)` is `sorted(result, reverse=True)[:n]`, a stable
descending sort by the `(score, word)` tuple. -/
def get_close_matches (sim : String → String → ℚ) (word : String)
    (possibilities : List String) (n : Nat) (cutoff : ℚ) : List String :=
  ((List.insertionSort (fun a b : ℚ × String => pairLtB a b = false)
    (possibilities.filterMap
      (fun x => if cutoff ≤ sim x word then some (sim x word, x) else none))).take n).map (·.2)

/-- `official_names[off_norm.index(key)]`; in `_map_bairro_to_official` the key
is always a member of `off_norm`, which has the same length as
`official_names`, so the default is never reached. -/
def officialAt (official off_norm : List String) (key : String) : String :=
  official.getD (off_norm.findIdx (fun x => x == key)) ""

/-- The per-label body of the `for b in bairros:` loop of
`_map_bairro_to_official` (lines 210-227): manual override, then synonym
rewriting, then exact normalized match, then fuzzy match with cutoff 0.9,
then the identity fallback. -/
def resolveLabel (normalize : String → String) (sim : String → String → ℚ)
    (manual : Option (List (String × String)))
    (official_names off_norm : List String) (b : String) : String :=
  match manualHit manual (normalize b) with
  | some v => v
  | none =>
    if off_norm.contains ((dictGet? synonyms (normalize b)).getD (normalize b)) then
      officialAt official_names off_norm ((dictGet? synonyms (normalize b)).getD (normalize b))
    else
      match get_close_matches sim ((dictGet? synonyms (normalize b)).getD (normalize b))
          off_norm 1 (mkRat 9 10) with
      | mtc :: _ => officialAt official_names off_norm mtc
      | [] => b

/-- Embedding of `_map_bairro_to_official` (lines 195-228), with the
`unicodedata`-based `_normalize` and the difflib similarity as oracles and the
optional manual CSV table as a parameter. -/
def map_bairro_to_official (normalize : String → String) (sim : String → String → ℚ)
    (manual : Option (List (String × String)))
    (bairros official_names : List String) : List (String × String) :=
  let off_norm := official_names.map normalize
  bairros.foldl
    (fun mapping b =>
      dictSet mapping b (resolveLabel normalize sim manual official_names off_norm b))
    []

/-- A DataFrame cell of the neighbourhood column: `none` is NaN. -/
abbrev Cell := Option String

/-- A DataFrame: named columns of cells (all the code reads is one column). -/
abbrev DataFrame := List (String × List Cell)

/-- `df.empty`: true iff some axis has length zero. -/
def dfEmpty (df : DataFrame) : Bool := df.all (fun c => c.2.isEmpty)

/-- Number of rows (columns all share one length in a real DataFrame). -/
def dfNumRows (df : DataFrame) : Nat := (df.head?.map (fun c => c.2.length)).getD 0

/-- `df[name]` for a column. -/
def dfGetCol (df : DataFrame) (name : String) : List Cell := (dictGet? df name).getD []

/-- `df_out[name] = vals` (after a `df.copy()`, which has value semantics here). -/
def dfSetCol (df : DataFrame) (name : String) (vals : List Cell) : DataFrame :=
  dictSet df name vals

/-- `Series.unique()`: distinct values in order of first appearance. -/
def uniqueFirst (l : List String) : List String :=
  l.foldl (fun acc x => if acc.contains x then acc else acc ++ [x]) []

/-- Embedding of `sorted(pd.Series(df[col].dropna().unique()).astype(str).tolist())`. -/
def sortedDistinct (cells : List Cell) : List String :=
  List.insertionSort (fun a b => strLeB a b = true) (uniqueFirst (cells.filterMap id))

/-- Embedding of `Series.value_counts()`: distinct non-null values with their
multiplicities, presented in descending count order (stable with respect to
first appearance). -/
def value_counts (cells : List Cell) : Counts :=
  let vals := cells.filterMap id
  List.insertionSort (fun a b : String × Nat => b.2 ≤ a.2)
    ((uniqueFirst vals).map (fun v => (v, vals.count v)))

/-- The region-dict values: member-name lists, plus the `"__source__"` marker
string (the Python dict is heterogeneous at that one key). -/
inductive RVal where
  | names (ns : List String)
  | src (s : String)
deriving DecidableEq, Repr

/-- The bucket loop of `_balanced_regions_without_geo` (lines 321-331):
accumulate blocks into `current_region`; seal it under the label of its first
member whenever the running total reaches the threshold; seal a leftover
partial bucket at the end. -/
def bucketLoop (min_tx : Nat) :
    List (String × Nat) → List String → Nat → List (String × List String) →
    List (String × List String)
  | [], current, _, regions =>
    match current with
    | [] => regions
    | c :: _ => dictSet regions (region_label c) current
  | (b, c) :: rest, current, total, regions =>
    let current := current ++ [b]
    let total := total + c
    if min_tx ≤ total then
      match current with
      | [] => regions
      | c0 :: _ => bucketLoop min_tx rest [] 0 (dictSet regions (region_label c0) current)
    else bucketLoop min_tx rest current total regions

/-- Embedding of `_balanced_regions_without_geo` (lines 308-342): group the
count-sorted labels into buckets, map each row's label to its region (with the
`região: <label>` fallback for labels outside the dict and `"região: nan"`
for null rows, since Python formats `str(nan)`), and tag the dict with the
fallback source marker. -/
def balanced_regions_without_geo (df : DataFrame) (bairro_col : String) (min_tx : Nat) :
    DataFrame × List (String × RVal) :=
  let counts := value_counts (dfGetCol df bairro_col)
  let bairros_sorted := sort_values_index counts
  let blocks := bairros_sorted.map (fun b => (b, countOf counts b))
  let regions := bucketLoop min_tx blocks [] 0 []
  let bairro_to_region :=
    regions.foldl (fun d p => p.2.foldl (fun d b => dictSet d b p.1) d) []
  let df_out := dfSetCol df "regiao" ((dfGetCol df bairro_col).map (fun c =>
    match c with
    | none => some "região: nan"
    | some b => some ((dictGet? bairro_to_region b).getD (region_label b))))
  (df_out,
    dictSet (regions.map (fun p => (p.1, RVal.names p.2))) "__source__" (RVal.src "fallback"))

/-- The ambient external world of `build_regions_for_recife`: the optional
manual mapping CSV, the `_normalize` and similarity oracles, the rows
`(unit_id, bairro_oficial)` produced by the two geometry loaders, and the
adjacency tables that `_build_adjacency` computes from their geometries. -/
structure GeoEnv where
  manual : Option (List (String × String))
  normalize : String → String
  sim : String → String → ℚ
  bairrosGeo : List (Nat × String)
  adjBairros : Adjacency
  subsGeo : List (Nat × String)
  adjSubs : Adjacency

/-- `dict(zip(names, ids))`: later duplicate names overwrite earlier ones. -/
def dictOfPairs (ps : List (String × Nat)) : IdByName :=
  ps.foldl (fun d p => dictSet d p.1 p.2) []

/-- The shared body of the two spatial paths of `build_regions_for_recife`
(lines 366-393 and 395-422; the code duplicates this block verbatim for the
official-bairros and the IBGE-subdistrict sources). -/
def spatial_path (normalize : String → String) (sim : String → String → ℚ)
    (manual : Option (List (String × String)))
    (geo : List (Nat × String)) (adjacency : Adjacency) (srcTag : String)
    (df : DataFrame) (bairro_col : String) (min_tx : Nat) :
    DataFrame × List (String × RVal) :=
  let official := geo.map (·.2)
  let bairros := sortedDistinct (dfGetCol df bairro_col)
  let bairro_to_off := map_bairro_to_official normalize sim manual bairros official
  let unit_name := (dfGetCol df bairro_col).map (fun c => c.bind (dictGet? bairro_to_off))
  let counts_by_unit := value_counts unit_name
  let id_by_name := dictOfPairs (geo.map (fun p => (p.2, p.1)))
  let mapping := balanced_merge counts_by_unit adjacency id_by_name min_tx
  let to_region : Cell → Cell := fun c =>
    match c with
    | none => some "região: nan"
    | some b =>
      let uname := (dictGet? bairro_to_off b).getD b
      some ((dictGet? mapping uname).getD (region_label uname))
  let df_out := dfSetCol df "regiao" ((dfGetCol df bairro_col).map to_region)
  let regions_dict := mapping.foldl (fun d p => dictAppend d p.2 p.1) []
  (df_out,
    dictSet (regions_dict.map (fun p => (p.1, RVal.names p.2))) "__source__" (RVal.src srcTag))

/-- Embedding of `build_regions_for_recife` (lines 346-425): empty-input
short-circuit, then the official-bairros path, then the IBGE-subdistricts
path, then the geometry-free fallback. -/
def build_regions_for_recife (env : GeoEnv) (df : DataFrame)
    (bairro_col : String) (min_tx_per_region : Nat) :
    DataFrame × List (String × RVal) :=
  if dfEmpty df then
    (dfSetCol df "regiao" (List.replicate (dfNumRows df) none),
     [("__source__", RVal.src "fallback")])
  else if !env.bairrosGeo.isEmpty then
    spatial_path env.normalize env.sim env.manual env.bairrosGeo env.adjBairros "bairros"
      df bairro_col min_tx_per_region
  else if !env.subsGeo.isEmpty then
    spatial_path env.normalize env.sim env.manual env.subsGeo env.adjSubs "ibge"
      df bairro_col min_tx_per_region
  else
    balanced_regions_without_geo df bairro_col min_tx_per_region

/-! ### Concrete instances used by the scenario claims, counterexamples and
witnesses -/

/-- Scenario-1 transaction counts: A has 50, B has 80, C has 300. -/
def c5counts : Counts := [("A", 50), ("B", 80), ("C", 300)]

/-- Scenario-1 adjacency: A–B and B–C only (ids 1, 2, 3). -/
def c5adj : Adjacency := [(1, [2]), (2, [1, 3]), (3, [2])]

/-- Scenario-1 name-to-id table. -/
def c5idm : IdByName := [("A", 1), ("B", 2), ("C", 3)]

/-- A trivial environment (no geometry available at all). -/
def envNoGeo : GeoEnv := ⟨none, id, fun _ _ => 0, [], [], [], []⟩

/-- An environment in which the official-bairros source is available. -/
def envWithGeo : GeoEnv := ⟨none, id, fun _ _ => 0, [(1, "X")], [(1, [])], [], []⟩

/-- An empty one-column DataFrame. -/
def dfEmptyBairro : DataFrame := [("bairro", [])]

/-- An ASCII-uppercasing stand-in for the `_normalize` oracle. -/
def upperAscii : String → String := fun s => ⟨s.data.map Char.toUpper⟩

/-- A similarity oracle under which "Sentro" resembles the official name
"CENTRO" with ratio 0.7 — between the two cutoffs 0.6 and 0.9. -/
def simSentro : String → String → ℚ := fun a b =>
  if a == "CENTRO" && b == "SENTRO" then mkRat 7 10 else 0

/-- An environment whose primary (official-bairros) source is unavailable and
whose IBGE subdistrict source has the single unit "CENTRO". -/
def envSubsOnly : GeoEnv := ⟨none, upperAscii, simSentro, [], [], [(1, "CENTRO")], []⟩

/-- A one-row DataFrame whose only transaction is in "Sentro". -/
def dfSentro : DataFrame := [("bairro", [some "Sentro"])]

/-- Proof-side companion of `bucketLoop` that keeps the blocks as
`(label, count)` pairs and returns the sealed buckets as a plain list, with
no dictionary semantics.  `bucketLoop` is proved equal to it (up to labelling
and projection) when the seal labels are distinct. -/
def buckets (min_tx : Nat) :
    List (String × Nat) → List (String × Nat) → Nat → List (List (String × Nat))
  | [], cur, _ => if cur.isEmpty then [] else [cur]
  | (b, c) :: rest, cur, tot =>
    if min_tx ≤ tot + c then (cur ++ [(b, c)]) :: buckets min_tx rest [] 0
    else buckets min_tx rest (cur ++ [(b, c)]) (tot + c)

/-- The seal label of a bucket: the region label of its first member. -/
def bucketLabel : List (String × Nat) → String
  | [] => ""
  | (b, _) :: _ => region_label b

/-- The scenario-3 transaction column: 10 rows of X, 15 of Y, 300 of Z. -/
def c6cells : List Cell :=
  List.replicate 10 (some "X") ++ List.replicate 15 (some "Y") ++ List.replicate 300 (some "Z")

/-- The scenario-3 DataFrame. -/
def c6df : DataFrame := [("bairro", c6cells)]

/-- The scenario-3 count blocks in ascending order. -/
def c6blocks : List (String × Nat) := [("X", 10), ("Y", 15), ("Z", 300)]

/-- Concrete straggler instance: two regions with totals 5 and 0. -/
def c10acc : MergeAcc := ⟨[1, 2], [("região: a", [1]), ("região: b", [2])]⟩

/-- Counts for the straggler instance (only unit A has transactions). -/
def c10counts : Counts := [("A", 5)]

/-- Name table for the straggler instance. -/
def c10idm : IdByName := [("A", 1), ("B", 2)]

/-- Counts used by the C1 counterexample: S=1, D=2, B=5, C=10. -/
def c1counts : Counts := [("S", 1), ("D", 2), ("B", 5), ("C", 10)]

/-- Adjacency used by the C1 counterexample: S–B, S–C, B–D
(ids S=1, B=2, C=3, D=4). -/
def c1adj : Adjacency := [(1, [2, 3]), (2, [1, 4]), (3, [1]), (4, [2])]

/-- Name-to-id table used by the C1 counterexample. -/
def c1idm : IdByName := [("S", 1), ("B", 2), ("C", 3), ("D", 4)]

/-- Pop from a batched frontier: skip the leading empty batches, return the
head of the first nonempty batch, the rest of that batch, and the remaining
batches; `none` exactly when the flattened frontier is empty.  This is the
batch-level counterpart of the code's `frontier.pop(0)`. -/
def batchPop : List (List Nat) → Option (Nat × List Nat × List (List Nat))
  | [] => none
  | [] :: bs => batchPop bs
  | (x :: t) :: bs => some (x, t, bs)

/-- Ghost state of the frontier-growth loop in which the frontier is kept as
an explicit queue of batches rather than the flattened list the code keeps;
all other fields are as in `GrowState`. -/
structure BGrowState where
  total : Nat
  batches : List (List Nat)
  visited : List Nat
  assigned : List Nat
  current : List Nat
deriving DecidableEq, Repr

/-- The growth-loop iteration on the batched ghost state: pop the head of the
first nonempty batch (`frontier.pop(0)`); if it is already visited or
assigned, just mark it visited; otherwise add it to the region and append its
count-sorted fresh neighbours as ONE new batch at the END of the queue
(`frontier.extend(sorted(neighs, ...))`). -/
def bGrowStep (counts : Counts) (adj : Adjacency) (m : IdByName) (s : BGrowState) : BGrowState :=
  match batchPop s.batches with
  | none => s
  | some (nid, t, bs) =>
    if s.visited.contains nid || s.assigned.contains nid then
      { s with batches := t :: bs, visited := nid :: s.visited }
    else
      let visited := nid :: s.visited
      let assigned := nid :: s.assigned
      let neighs := (adjOf adj nid).filter (fun x => !visited.contains x && !assigned.contains x)
      { total := s.total + countOf counts (name_by_id nid m),
        batches := (t :: bs) ++ [sortByCount counts m neighs],
        visited := visited,
        assigned := assigned,
        current := s.current ++ [nid] }

/-- The batched counterpart of `grow_start`: the initial frontier is a single
batch, namely the seed's neighbours sorted ascending by count. -/
def bGrow_start (counts : Counts) (adj : Adjacency) (m : IdByName)
    (assigned0 : List Nat) (uid : Nat) (unit_name : String) : BGrowState :=
  { total := countOf counts unit_name,
    batches := [sortByCount counts m (adjOf adj uid)],
    visited := [uid],
    assigned := uid :: assigned0,
    current := [uid] }

/-- Forget the batch boundaries: project the batched ghost state onto the
code's `GrowState` by flattening the batch queue into the frontier list. -/
def bProj (s : BGrowState) : GrowState :=
  { total := s.total, frontier := s.batches.flatten,
    visited := s.visited, assigned := s.assigned, current := s.current }

/-- Every batch of a batched frontier is internally sorted ascending by the
units' transaction counts. -/
def BatchesSorted (counts : Counts) (m : IdByName) (bs : List (List Nat)) : Prop :=
  ∀ b ∈ bs,
    b.Sorted (fun a c => countOf counts (name_by_id a m) ≤ countOf counts (name_by_id c m))

/-- Connectivity certificate for a region member list: every member after the
first is adjacent (in the adjacency table) to some earlier member; this is a
spanning-tree witness over the members. -/
def ChainConn (adj : Adjacency) (ms : List Nat) : Prop :=
  ∀ i, (hi : i < ms.length) → 0 < i →
    ∃ j, ∃ hj : j < ms.length, j < i ∧ ms[i] ∈ adjOf adj ms[j]

/-- Invariant of the growth loop: every frontier element is adjacent to some
member of the region under construction, and the region is chain-connected. -/
def FrontierConn (adj : Adjacency) (s : GrowState) : Prop :=
  (∀ y ∈ s.frontier, ∃ c ∈ s.current, y ∈ adjOf adj c) ∧ ChainConn adj s.current

/-- All regions of a regions dict are chain-connected. -/
def RegionsConn (adj : Adjacency) (regions : List (String × List Nat)) : Prop :=
  ∀ p ∈ regions, ChainConn adj p.2

/-! ### Basic dictionary lemmas -/

theorem find?_set_map_self {α : Type} (d : List (String × α)) (k : String) (v : α)
    (h : d.any (fun p => p.1 == k) = true) :
    List.find? (fun p => p.1 == k) (d.map (fun p => if p.1 == k then (k, v) else p)) =
      some (k, v) := by
  induction d with
  | nil => simp at h
  | cons p t ih =>
    by_cases hp : p.1 = k
    · rw [List.map_cons, if_pos (by simpa using hp)]
      exact List.find?_cons_of_pos _ (by simp)
    · rw [List.map_cons, if_neg (by simpa using hp)]
      rw [List.find?_cons_of_neg _ (by simpa using hp)]
      apply ih
      simpa [hp] using h

theorem find?_set_map_ne {α : Type} (d : List (String × α)) (k k' : String) (v : α)
    (h : k' ≠ k) :
    List.find? (fun p => p.1 == k') (d.map (fun p => if p.1 == k then (k, v) else p)) =
      List.find? (fun p => p.1 == k') d := by
  induction d with
  | nil => rfl
  | cons p t ih =>
    by_cases hp : p.1 = k
    · rw [List.map_cons, if_pos (by simpa using hp)]
      rw [List.find?_cons_of_neg _ (by simp [Ne.symm h]),
        List.find?_cons_of_neg _ (by simp [hp, Ne.symm h])]
      exact ih
    · rw [List.map_cons, if_neg (by simpa using hp)]
      by_cases hq : p.1 = k'
      · rw [List.find?_cons_of_pos _ (by simpa using hq),
          List.find?_cons_of_pos _ (by simpa using hq)]
      · rw [List.find?_cons_of_neg _ (by simpa using hq),
          List.find?_cons_of_neg _ (by simpa using hq)]
        exact ih

theorem dictGet?_dictSet_self {α : Type} (d : List (String × α)) (k : String) (v : α) :
    dictGet? (dictSet d k v) k = some v := by
  unfold dictGet? dictSet
  by_cases h : d.any (fun p => p.1 == k) = true
  · rw [if_pos h, find?_set_map_self d k v h]
    rfl
  · rw [if_neg h, List.find?_append]
    have hnone : List.find? (fun p => p.1 == k) d = none := by
      rw [List.find?_eq_none]
      intro x hx hxk
      exact h (List.any_eq_true.2 ⟨x, hx, hxk⟩)
    rw [hnone]
    simp [List.find?_cons_of_pos]

theorem dictGet?_dictSet_ne {α : Type} (d : List (String × α)) (k k' : String) (v : α)
    (h : k' ≠ k) : dictGet? (dictSet d k v) k' = dictGet? d k' := by
  unfold dictGet? dictSet
  by_cases hany : d.any (fun p => p.1 == k) = true
  · rw [if_pos hany, find?_set_map_ne d k k' v h]
  · rw [if_neg hany, List.find?_append]
    have : List.find? (fun p => p.1 == k') [(k, v)] = none := by
      simp [List.find?_cons_of_neg, Ne.symm h]
    rw [this]
    simp

theorem mem_dictSet {α : Type} {d : List (String × α)} {k : String} {v : α} {p : String × α}
    (h : p ∈ dictSet d k v) : p ∈ d ∨ p = (k, v) := by
  unfold dictSet at h
  split at h
  · rcases List.mem_map.1 h with ⟨q, hq, hqe⟩
    by_cases hk : q.1 = k
    · right
      rw [if_pos (by simpa using hk)] at hqe
      exact hqe.symm
    · left
      rw [if_neg (by simpa using hk)] at hqe
      exact hqe ▸ hq
  · rcases List.mem_append.1 h with h1 | h1
    · exact Or.inl h1
    · right
      simpa using h1

theorem dictSet_keys_sub {α : Type} {d : List (String × α)} {k : String} {v : α} {k' : String}
    (h : k' ∈ (dictSet d k v).map (·.1)) : k' ∈ d.map (·.1) ∨ k' = k := by
  rcases List.mem_map.1 h with ⟨q, hq, hqe⟩
  rcases mem_dictSet hq with h1 | h1
  · exact Or.inl (hqe ▸ List.mem_map_of_mem _ h1)
  · right
    rw [h1] at hqe
    exact hqe.symm

/-! ### Claim C5: the three-unit chain scenario -/

/-- C5: with counts A=50, B=80, C=300, adjacency {A–B, B–C} and
`min_tx_per_region = 200`, `_balanced_merge` puts A, B and C into the single
region labelled exactly `"região: a"`, whose member ids are `[1, 2, 3]` and
whose transaction total is 430. -/
theorem C5_scenario_single_region :
    balanced_merge c5counts c5adj c5idm 200 =
      [("A", "região: a"), ("B", "região: a"), ("C", "região: a")] ∧
    (balanced_merge_acc c5counts c5adj c5idm 200).regions = [("região: a", [1, 2, 3])] ∧
    region_total c5counts c5idm [1, 2, 3] = 430 := by
  refine ⟨by decide, by decide, by decide⟩

/-! ### Claim C7: empty input short-circuits -/

/-- C7: on an empty DataFrame, `build_regions_for_recife` returns the copy of
the frame with an all-null `regiao` column and the fallback-only marker dict,
and the result does not depend on any geometry source, manual table or
matching oracle (no source is consulted). -/
theorem C7_empty_short_circuit (env env' : GeoEnv) (df : DataFrame) (col : String)
    (min_tx : Nat) (h : dfEmpty df = true) :
    build_regions_for_recife env df col min_tx =
      (dfSetCol df "regiao" (List.replicate (dfNumRows df) none),
        [("__source__", RVal.src "fallback")]) ∧
    build_regions_for_recife env df col min_tx = build_regions_for_recife env' df col min_tx := by
  constructor
  · simp [build_regions_for_recife, h]
  · simp [build_regions_for_recife, h]

theorem C7_empty_short_circuit_witness :
    build_regions_for_recife envNoGeo dfEmptyBairro "bairro" 200 =
      (dfSetCol dfEmptyBairro "regiao" (List.replicate (dfNumRows dfEmptyBairro) none),
        [("__source__", RVal.src "fallback")]) ∧
    build_regions_for_recife envNoGeo dfEmptyBairro "bairro" 200 =
      build_regions_for_recife envWithGeo dfEmptyBairro "bairro" 200 :=
  C7_empty_short_circuit envNoGeo envWithGeo dfEmptyBairro "bairro" 200 (by decide)

/-! ### Name-reconciliation lemmas (for C4 and C8) -/

theorem dictGet?_foldl_set {α : Type} (f : String → α) (l : List String)
    (d0 : List (String × α)) (b : String) :
    dictGet? (l.foldl (fun d x => dictSet d x (f x)) d0) b =
      if b ∈ l then some (f b) else dictGet? d0 b := by
  induction l generalizing d0 with
  | nil => simp
  | cons x t ih =>
    rw [List.foldl_cons, ih]
    by_cases hbt : b ∈ t
    · rw [if_pos hbt, if_pos (List.mem_cons_of_mem x hbt)]
    · rw [if_neg hbt]
      by_cases hbx : b = x
      · rw [if_pos (by simp [hbx]), hbx, dictGet?_dictSet_self]
      · rw [if_neg (by simp [hbx, hbt]), dictGet?_dictSet_ne _ _ _ _ hbx]

theorem map_bairro_lookup (normalize : String → String) (sim : String → String → ℚ)
    (manual : Option (List (String × String))) (bairros official : List String) (b : String) :
    dictGet? (map_bairro_to_official normalize sim manual bairros official) b =
      if b ∈ bairros then
        some (resolveLabel normalize sim manual official (official.map normalize) b)
      else none := by
  unfold map_bairro_to_official
  rw [dictGet?_foldl_set]
  rfl

theorem mem_of_mem_gcm {sim : String → String → ℚ} {word : String} {poss : List String}
    {n : Nat} {cutoff : ℚ} {x : String}
    (h : x ∈ get_close_matches sim word poss n cutoff) : x ∈ poss := by
  unfold get_close_matches at h
  rcases List.mem_map.1 h with ⟨q, hq, hqe⟩
  have hq2 : q ∈ poss.filterMap
      (fun x => if cutoff ≤ sim x word then some (sim x word, x) else none) :=
    (List.perm_insertionSort _ _).subset (List.take_subset _ _ hq)
  rcases List.mem_filterMap.1 hq2 with ⟨a, ha, hae⟩
  by_cases hc : cutoff ≤ sim a word
  · rw [if_pos hc] at hae
    cases hae
    exact hqe ▸ ha
  · rw [if_neg hc] at hae
    cases hae

theorem gcm_eq_nil {sim : String → String → ℚ} {word : String} {poss : List String}
    {n : Nat} {cutoff : ℚ} (h : ∀ o ∈ poss, ¬ cutoff ≤ sim o word) :
    get_close_matches sim word poss n cutoff = [] := by
  unfold get_close_matches
  have : poss.filterMap
      (fun x => if cutoff ≤ sim x word then some (sim x word, x) else none) = [] := by
    rw [List.filterMap_eq_nil_iff]
    intro a ha
    rw [if_neg (h a ha)]
  rw [this]
  simp [List.insertionSort]

theorem gcm_ne_nil {sim : String → String → ℚ} {word : String} {poss : List String}
    {cutoff : ℚ} (h : ∃ o ∈ poss, cutoff ≤ sim o word) :
    get_close_matches sim word poss 1 cutoff ≠ [] := by
  unfold get_close_matches
  rcases h with ⟨o, ho, hc⟩
  have hmem : (sim o word, o) ∈ poss.filterMap
      (fun x => if cutoff ≤ sim x word then some (sim x word, x) else none) :=
    List.mem_filterMap.2 ⟨o, ho, by rw [if_pos hc]⟩
  have hne : poss.filterMap
      (fun x => if cutoff ≤ sim x word then some (sim x word, x) else none) ≠ [] := by
    intro he
    rw [he] at hmem
    simp at hmem
  intro he
  cases hs : List.insertionSort (fun a b : ℚ × String => pairLtB a b = false)
      (poss.filterMap
        (fun x => if cutoff ≤ sim x word then some (sim x word, x) else none)) with
  | nil =>
    apply hne
    have hp := List.perm_insertionSort (fun a b : ℚ × String => pairLtB a b = false)
      (poss.filterMap
        (fun x => if cutoff ≤ sim x word then some (sim x word, x) else none))
    rw [hs] at hp
    exact hp.symm.eq_nil
  | cons a tl =>
    rw [hs] at he
    simp at he

theorem officialAt_mem {official : List String} {normalize : String → String} {key : String}
    (hkey : key ∈ official.map normalize) :
    officialAt official (official.map normalize) key ∈ official := by
  unfold officialAt
  have hidx : (official.map normalize).findIdx (fun x => x == key) <
      (official.map normalize).length :=
    List.findIdx_lt_length.2 ⟨key, hkey, by simp⟩
  rw [List.length_map] at hidx
  rw [List.getD_eq_getElem official "" hidx]
  exact List.getElem_mem hidx

/-! ### Claim C4: the fuzzy-match cutoffs -/

/-- C4 counterexample: the claim says the legacy (IBGE subdistrict) path
accepts fuzzy matches above cutoff 0.6.  In the code both paths call
`_map_bairro_to_official`, whose only fuzzy cutoff is 0.9.  With a similarity
oracle giving ratio 0.7 between the raw label "Sentro" and the only
subdistrict "CENTRO" — above 0.6, below 0.9 — the subdistrict path leaves
"Sentro" unmatched (identity fallback, region `"região: sentro"`), whereas a
0.6 cutoff would have matched "CENTRO" (as `get_close_matches` at cutoff 0.6
shows).  So the claim is false at this input. -/
theorem C4_legacy_cutoff_cex :
    (build_regions_for_recife envSubsOnly dfSentro "bairro" 200).2 =
      [("região: centro", RVal.names ["CENTRO"]), ("__source__", RVal.src "ibge")] ∧
    (build_regions_for_recife envSubsOnly dfSentro "bairro" 200).1 =
      [("bairro", [some "Sentro"]), ("regiao", [some "região: sentro"])] ∧
    map_bairro_to_official upperAscii simSentro none ["Sentro"] ["CENTRO"] =
      [("Sentro", "Sentro")] ∧
    get_close_matches simSentro "SENTRO" ["CENTRO"] 1 (mkRat 6 10) = ["CENTRO"] ∧
    mkRat 6 10 ≤ simSentro "CENTRO" "SENTRO" ∧
    upperAscii "Sentro" = "SENTRO" := by
  refine ⟨by decide, by decide, by decide, by decide, by decide, by decide⟩

/-- C4 as amended: both the primary (official-bairros) and the legacy
(IBGE-subdistrict) path perform name reconciliation with the single function
`_map_bairro_to_official` (called at lines 371 and 400 with the same cutoff),
so for a raw label with no manual override, no synonym rewrite and no exact
normalized match, a fuzzy match is accepted only at cutoff 0.9: if every
official candidate has similarity below 0.9 the label falls back to itself
(even when similarities lie above 0.6), and if some candidate reaches 0.9 the
label resolves to an official name. -/
theorem C4_cutoff_both_paths (normalize : String → String) (sim : String → String → ℚ)
    (manual : Option (List (String × String))) (bairros official : List String) (b : String)
    (hb : b ∈ bairros)
    (hman : manualHit manual (normalize b) = none)
    (hsyn : dictGet? synonyms (normalize b) = none)
    (hex : (official.map normalize).contains (normalize b) = false) :
    ((∀ o ∈ official.map normalize, sim o (normalize b) < mkRat 9 10) →
      dictGet? (map_bairro_to_official normalize sim manual bairros official) b = some b) ∧
    ((∃ o ∈ official.map normalize, mkRat 9 10 ≤ sim o (normalize b)) →
      ∃ v, dictGet? (map_bairro_to_official normalize sim manual bairros official) b = some v ∧
        v ∈ official) := by
  have hres : dictGet? (map_bairro_to_official normalize sim manual bairros official) b =
      some (resolveLabel normalize sim manual official (official.map normalize) b) := by
    rw [map_bairro_lookup, if_pos hb]
  constructor
  · intro hlt
    rw [hres]
    unfold resolveLabel
    rw [hman, hsyn]
    simp only [Option.getD_none]
    rw [if_neg (by rw [hex]; simp)]
    rw [gcm_eq_nil (fun o ho => not_le.2 (hlt o ho))]
  · intro hge
    rw [hres]
    unfold resolveLabel
    rw [hman, hsyn]
    simp only [Option.getD_none]
    rw [if_neg (by rw [hex]; simp)]
    cases hg : get_close_matches sim (normalize b) (official.map normalize) 1 (mkRat 9 10) with
    | nil => exact absurd hg (gcm_ne_nil hge)
    | cons mtc tl =>
      refine ⟨_, rfl, officialAt_mem ?_⟩
      exact mem_of_mem_gcm (x := mtc) (hg ▸ List.mem_cons_self mtc tl)

theorem C4_cutoff_both_paths_witness :
    dictGet? (map_bairro_to_official upperAscii simSentro none ["Sentro"] ["CENTRO"])
      "Sentro" = some "Sentro" :=
  (C4_cutoff_both_paths upperAscii simSentro none ["Sentro"] ["CENTRO"] "Sentro"
    (by decide) (by decide) (by decide) (by decide)).1 (by decide)

/-! ### Claim C8: totality of the name mapping -/

theorem resolveLabel_cases (normalize : String → String) (sim : String → String → ℚ)
    (manual : Option (List (String × String))) (official : List String) (b : String) :
    (∃ w, manualHit manual (normalize b) = some w ∧
      resolveLabel normalize sim manual official (official.map normalize) b = w) ∨
    resolveLabel normalize sim manual official (official.map normalize) b ∈ official ∨
    resolveLabel normalize sim manual official (official.map normalize) b = b := by
  unfold resolveLabel
  cases hm : manualHit manual (normalize b) with
  | some w => exact Or.inl ⟨w, rfl, rfl⟩
  | none =>
    right
    by_cases hc : ((official.map normalize).contains
        ((dictGet? synonyms (normalize b)).getD (normalize b))) = true
    · rw [if_pos hc]
      exact Or.inl (officialAt_mem (by simpa using hc))
    · rw [if_neg hc]
      cases hg : get_close_matches sim ((dictGet? synonyms (normalize b)).getD (normalize b))
          (official.map normalize) 1 (mkRat 9 10) with
      | nil => exact Or.inr rfl
      | cons mtc tl =>
        exact Or.inl (officialAt_mem (mem_of_mem_gcm (x := mtc)
          (hg ▸ List.mem_cons_self mtc tl)))

/-- C8: `_map_bairro_to_official` is total.  For every normalization and
similarity oracle, optional manual table, and input lists, every raw label of
`bairros` is a key of the returned mapping, bound to a (non-null) string that
is either the manual-override value, an official name (reached through the
synonym, exact or fuzzy branch), or the raw label itself; and conversely every
key of the mapping is one of the raw labels. -/
theorem C8_mapping_total (normalize : String → String) (sim : String → String → ℚ)
    (manual : Option (List (String × String))) (bairros official : List String) :
    (∀ b ∈ bairros, ∃ v,
      dictGet? (map_bairro_to_official normalize sim manual bairros official) b = some v ∧
        (manualHit manual (normalize b) = some v ∨ v ∈ official ∨ v = b)) ∧
    (∀ k, (dictGet? (map_bairro_to_official normalize sim manual bairros official) k).isSome
        = true → k ∈ bairros) := by
  constructor
  · intro b hb
    refine ⟨resolveLabel normalize sim manual official (official.map normalize) b,
      by rw [map_bairro_lookup, if_pos hb], ?_⟩
    rcases resolveLabel_cases normalize sim manual official b with ⟨w, hw, he⟩ | h | h
    · exact Or.inl (he ▸ hw)
    · exact Or.inr (Or.inl h)
    · exact Or.inr (Or.inr h)
  · intro k hk
    by_contra hnk
    rw [map_bairro_lookup, if_neg hnk] at hk
    simp at hk

theorem C8_mapping_total_witness :
    ∃ v, dictGet? (map_bairro_to_official upperAscii simSentro none ["Sentro"] ["CENTRO"])
        "Sentro" = some v ∧
      (manualHit none (upperAscii "Sentro") = some v ∨ v ∈ ["CENTRO"] ∨ v = "Sentro") :=
  (C8_mapping_total upperAscii simSentro none ["Sentro"] ["CENTRO"]).1 "Sentro" (by decide)

/-! ### Claim C9: the input DataFrame is never mutated -/

theorem dfGetCol_setCol_ne (df : DataFrame) (n c : String) (v : List Cell) (hc : c ≠ n) :
    dfGetCol (dfSetCol df n v) c = dfGetCol df c := by
  unfold dfGetCol dfSetCol
  rw [dictGet?_dictSet_ne _ _ _ _ hc]

theorem spatial_path_fst (normalize : String → String) (sim : String → String → ℚ)
    (manual : Option (List (String × String))) (geo : List (Nat × String)) (adjacency : Adjacency)
    (srcTag : String) (df : DataFrame) (bairro_col : String) (min_tx : Nat) :
    ∃ vals, (spatial_path normalize sim manual geo adjacency srcTag df bairro_col min_tx).1 =
      dfSetCol df "regiao" vals :=
  ⟨_, rfl⟩

theorem without_geo_fst (df : DataFrame) (bairro_col : String) (min_tx : Nat) :
    ∃ vals, (balanced_regions_without_geo df bairro_col min_tx).1 =
      dfSetCol df "regiao" vals :=
  ⟨_, rfl⟩

/-- C9: `build_regions_for_recife` adds the `regiao` column to a copy — in
this value-semantics embedding, the returned frame agrees with the input
frame on every column other than `regiao`, on all four paths (empty-input
short-circuit, official bairros, IBGE subdistricts, no-geometry fallback),
so the caller's DataFrame is left with exactly its original columns and
values. -/
theorem C9_input_columns_preserved (env : GeoEnv) (df : DataFrame) (col : String)
    (min_tx : Nat) (c : String) (hc : c ≠ "regiao") :
    dfGetCol (build_regions_for_recife env df col min_tx).1 c = dfGetCol df c := by
  unfold build_regions_for_recife
  by_cases h1 : dfEmpty df = true
  · rw [if_pos h1]
    exact dfGetCol_setCol_ne df "regiao" c _ hc
  · rw [if_neg h1]
    by_cases h2 : (!env.bairrosGeo.isEmpty) = true
    · rw [if_pos h2]
      obtain ⟨vals, hv⟩ := spatial_path_fst env.normalize env.sim env.manual env.bairrosGeo
        env.adjBairros "bairros" df col min_tx
      rw [hv]
      exact dfGetCol_setCol_ne df "regiao" c vals hc
    · rw [if_neg h2]
      by_cases h3 : (!env.subsGeo.isEmpty) = true
      · rw [if_pos h3]
        obtain ⟨vals, hv⟩ := spatial_path_fst env.normalize env.sim env.manual env.subsGeo
          env.adjSubs "ibge" df col min_tx
        rw [hv]
        exact dfGetCol_setCol_ne df "regiao" c vals hc
      · rw [if_neg h3]
        obtain ⟨vals, hv⟩ := without_geo_fst df col min_tx
        rw [hv]
        exact dfGetCol_setCol_ne df "regiao" c vals hc

theorem C9_input_columns_preserved_witness :
    dfGetCol (build_regions_for_recife envSubsOnly dfSentro "bairro" 200).1 "bairro" =
      dfGetCol dfSentro "bairro" :=
  C9_input_columns_preserved envSubsOnly dfSentro "bairro" 200 "bairro" (by decide)

/-! ### Claim C6: the no-geometry fallback builder -/

theorem dictSet_fresh {α : Type} (d : List (String × α)) (k : String) (v : α)
    (h : d.any (fun p => p.1 == k) = false) : dictSet d k v = d ++ [(k, v)] := by
  unfold dictSet
  rw [if_neg (by rw [h]; simp)]

theorem buckets_flatten (min_tx : Nat) (blocks : List (String × Nat)) :
    ∀ cur tot, (buckets min_tx blocks cur tot).flatten = cur ++ blocks := by
  induction blocks with
  | nil =>
    intro cur tot
    unfold buckets
    by_cases hc : cur.isEmpty
    · rw [if_pos hc]
      have : cur = [] := by simpa using hc
      simp [this]
    · rw [if_neg hc]
      simp
  | cons p rest ih =>
    intro cur tot
    obtain ⟨b, c⟩ := p
    unfold buckets
    by_cases h : min_tx ≤ tot + c
    · rw [if_pos h]
      simp [ih, List.append_assoc]
    · rw [if_neg h]
      rw [ih]
      simp

theorem buckets_ne_nil (min_tx : Nat) (blocks : List (String × Nat)) :
    ∀ cur tot bk, bk ∈ buckets min_tx blocks cur tot → bk ≠ [] := by
  induction blocks with
  | nil =>
    intro cur tot bk hbk
    unfold buckets at hbk
    by_cases hc : cur.isEmpty
    · rw [if_pos hc] at hbk
      simp at hbk
    · rw [if_neg hc] at hbk
      have hbe : bk = cur := by simpa using hbk
      rw [hbe]
      simpa using hc
  | cons p rest ih =>
    intro cur tot bk hbk
    obtain ⟨b, c⟩ := p
    unfold buckets at hbk
    by_cases h : min_tx ≤ tot + c
    · rw [if_pos h] at hbk
      rcases List.mem_cons.1 hbk with h1 | h1
      · rw [h1]
        simp
      · exact ih [] 0 bk h1
    · rw [if_neg h] at hbk
      exact ih _ _ bk hbk

theorem buckets_dropLast_ge (min_tx : Nat) (blocks : List (String × Nat)) :
    ∀ cur, ∀ bk ∈ (buckets min_tx blocks cur ((cur.map (·.2)).sum)).dropLast,
      min_tx ≤ (bk.map (·.2)).sum := by
  induction blocks with
  | nil =>
    intro cur bk hbk
    unfold buckets at hbk
    by_cases hc : cur.isEmpty
    · rw [if_pos hc] at hbk
      simp at hbk
    · rw [if_neg hc, List.dropLast_single] at hbk
      simp at hbk
  | cons p rest ih =>
    intro cur bk hbk
    obtain ⟨b, c⟩ := p
    unfold buckets at hbk
    by_cases h : min_tx ≤ (cur.map (·.2)).sum + c
    · rw [if_pos h] at hbk
      cases hrec : buckets min_tx rest [] 0 with
      | nil =>
        rw [hrec, List.dropLast_single] at hbk
        simp at hbk
      | cons x xs =>
        rw [hrec, List.dropLast_cons_of_ne_nil (by simp)] at hbk
        rcases List.mem_cons.1 hbk with h1 | h1
        · rw [h1]
          simpa using h
        · have h0 : (([] : List (String × Nat)).map (·.2)).sum = 0 := rfl
          have := ih []
          rw [h0, hrec] at this
          exact this bk h1
    · rw [if_neg h] at hbk
      have hsum : (cur.map (·.2)).sum + c = (((cur ++ [(b, c)]).map (·.2)).sum) := by
        simp
      rw [hsum] at hbk
      exact ih (cur ++ [(b, c)]) bk hbk

theorem snoc_cons_form (cur : List (String × Nat)) (b : String) (c : Nat) :
    ∃ c0 t0, cur.map (·.1) ++ [b] = c0 :: t0 ∧ bucketLabel (cur ++ [(b, c)]) = region_label c0 := by
  cases cur with
  | nil => exact ⟨b, [], rfl, rfl⟩
  | cons q qt =>
    obtain ⟨n, k⟩ := q
    exact ⟨n, qt.map (·.1) ++ [b], rfl, rfl⟩

theorem bucketLoop_eq_buckets (min_tx : Nat) (blocks : List (String × Nat)) :
    ∀ (cur : List (String × Nat)) (tot : Nat) (regions : List (String × List String)),
      (∀ bk ∈ buckets min_tx blocks cur tot,
        regions.any (fun p => p.1 == bucketLabel bk) = false) →
      ((buckets min_tx blocks cur tot).map bucketLabel).Nodup →
      bucketLoop min_tx blocks (cur.map (·.1)) tot regions =
        regions ++ (buckets min_tx blocks cur tot).map
          (fun bk => (bucketLabel bk, bk.map (·.1))) := by
  induction blocks with
  | nil =>
    intro cur tot regions hdisj hnodup
    cases cur with
    | nil => simp [bucketLoop, buckets]
    | cons q qt =>
      obtain ⟨n, k⟩ := q
      have hbuck : buckets min_tx [] ((n, k) :: qt) tot = [(n, k) :: qt] := by
        simp [buckets]
      have hfresh := hdisj ((n, k) :: qt) (by rw [hbuck]; exact List.mem_singleton.2 rfl)
      have hlab : bucketLabel ((n, k) :: qt) = region_label n := rfl
      rw [hlab] at hfresh
      show dictSet regions (region_label n) (n :: qt.map (·.1)) = _
      rw [dictSet_fresh _ _ _ hfresh, hbuck]
      simp [hlab]
  | cons p rest ih =>
    intro cur tot regions hdisj hnodup
    obtain ⟨b, c⟩ := p
    obtain ⟨c0, t0, hform, hlab⟩ := snoc_cons_form cur b c
    by_cases h : min_tx ≤ tot + c
    · have hbuck : buckets min_tx ((b, c) :: rest) cur tot =
          (cur ++ [(b, c)]) :: buckets min_tx rest [] 0 := by
        simp [buckets, h]
      have hfresh := hdisj (cur ++ [(b, c)]) (by rw [hbuck]; exact List.mem_cons_self _ _)
      rw [hlab] at hfresh
      have hnodup' := hnodup
      rw [hbuck] at hnodup'
      simp only [List.map_cons, List.nodup_cons] at hnodup'
      show (if min_tx ≤ tot + c then _ else _) = _
      rw [if_pos h, hform]
      show bucketLoop min_tx rest [] 0 (dictSet regions (region_label c0) (c0 :: t0)) = _
      rw [dictSet_fresh _ _ _ hfresh]
      have ihs := ih [] 0 (regions ++ [(region_label c0, c0 :: t0)]) ?hdisj ?hnodup
      case hdisj =>
        intro bk hbk
        rw [List.any_append]
        have h1 := hdisj bk (by rw [hbuck]; exact List.mem_cons_of_mem _ hbk)
        rw [h1]
        have hne : region_label c0 ≠ bucketLabel bk := by
          intro he
          apply hnodup'.1
          rw [hlab, he]
          exact List.mem_map_of_mem bucketLabel hbk
        simp [hne]
      case hnodup => exact hnodup'.2
      rw [show (([] : List (String × Nat)).map (·.1)) = ([] : List String) from rfl] at ihs
      rw [ihs, hbuck]
      simp [hlab, hform, List.append_assoc]
    · have hbuck : buckets min_tx ((b, c) :: rest) cur tot =
          buckets min_tx rest (cur ++ [(b, c)]) (tot + c) := by
        simp [buckets, h]
      show (if min_tx ≤ tot + c then _ else _) = _
      rw [if_neg h]
      have ihs := ih (cur ++ [(b, c)]) (tot + c) regions ?hdisj2 ?hnodup2
      case hdisj2 =>
        intro bk hbk
        exact hdisj bk (by rw [hbuck]; exact hbk)
      case hnodup2 =>
        rw [hbuck] at hnodup
        exact hnodup
      simp only [List.map_append, List.map_cons, List.map_nil] at ihs
      rw [ihs, hbuck]

theorem region_label_head (n : String) : (region_label n).data.head? = some 'r' := rfl

theorem region_label_ne_source (n : String) : region_label n ≠ "__source__" := by
  intro h
  have hd : (region_label n).data.head? = ("__source__" : String).data.head? := by rw [h]
  rw [region_label_head] at hd
  exact absurd hd (by decide)

theorem without_geo_snd (df : DataFrame) (col : String) (min_tx : Nat) :
    (balanced_regions_without_geo df col min_tx).2 =
      dictSet ((bucketLoop min_tx ((sort_values_index (value_counts (dfGetCol df col))).map
        (fun b => (b, countOf (value_counts (dfGetCol df col)) b))) [] 0 []).map
        (fun p => (p.1, RVal.names p.2))) "__source__" (RVal.src "fallback") := rfl

set_option maxRecDepth 8000 in
/-- C6: the fallback builder sorts the distinct labels ascending by count,
accumulates them in that order into buckets sealed as soon as the running
total reaches the threshold (a trailing partial bucket is sealed too), and
labels every region by its first (seed) member: provided the seal labels are
distinct (so no Python-dict overwrite occurs), the returned dict is exactly
the bucket list (each region labelled from its seed, followed by the
`__source__` marker), the concatenation of the member lists is the
count-sorted label list, and every region except possibly the last reaches
`min_tx_per_region`; and on the concrete scenario {X:10, Y:15, Z:300} with
threshold 20 the regions are `região: x = [X, Y]` and `região: z = [Z]`. -/
theorem C6_fallback_buckets :
    (∀ (df : DataFrame) (col : String) (min_tx : Nat) (blocks : List (String × Nat)),
      blocks = (sort_values_index (value_counts (dfGetCol df col))).map
          (fun b => (b, countOf (value_counts (dfGetCol df col)) b)) →
      ((buckets min_tx blocks [] 0).map bucketLabel).Nodup →
      ((balanced_regions_without_geo df col min_tx).2 =
        ((buckets min_tx blocks [] 0).map
          (fun bk => (bucketLabel bk, RVal.names (bk.map (·.1))))) ++
          [("__source__", RVal.src "fallback")] ∧
      ((buckets min_tx blocks [] 0).map (fun bk => bk.map (·.1))).flatten =
        blocks.map (·.1) ∧
      (∀ bk ∈ (buckets min_tx blocks [] 0).dropLast, min_tx ≤ (bk.map (·.2)).sum))) ∧
    (balanced_regions_without_geo c6df "bairro" 20).2 =
      [("região: x", RVal.names ["X", "Y"]), ("região: z", RVal.names ["Z"]),
       ("__source__", RVal.src "fallback")] := by
  constructor
  · intro df col min_tx blocks hblocks hnodup
    have hbl : bucketLoop min_tx blocks [] 0 [] =
        (buckets min_tx blocks [] 0).map (fun bk => (bucketLabel bk, bk.map (·.1))) := by
      have h0 := bucketLoop_eq_buckets min_tx blocks [] 0 []
        (fun bk _ => rfl) hnodup
      simpa using h0
    refine ⟨?_, ?_, ?_⟩
    · rw [without_geo_snd, ← hblocks, hbl, List.map_map]
      have hfresh : (((buckets min_tx blocks [] 0).map
          ((fun p : String × List String => (p.1, RVal.names p.2)) ∘
            (fun bk => (bucketLabel bk, bk.map (·.1))))).any
          (fun p => p.1 == "__source__")) = false := by
        rw [List.any_eq_false]
        intro p hp
        rcases List.mem_map.1 hp with ⟨bk, hbk, hpe⟩
        have hne : bucketLabel bk ≠ "__source__" := by
          have hbne := buckets_ne_nil min_tx blocks [] 0 bk hbk
          cases bk with
          | nil => exact absurd rfl hbne
          | cons q qt =>
            obtain ⟨n, k⟩ := q
            exact region_label_ne_source n
        rw [← hpe]
        simpa using hne
      rw [dictSet_fresh _ _ _ hfresh]
      rfl
    · rw [← List.map_flatten, buckets_flatten]
      rw [List.nil_append]
    · have h0 := buckets_dropLast_ge min_tx blocks []
      simpa using h0
  · decide

set_option maxRecDepth 8000 in
theorem C6_fallback_buckets_witness :
    (balanced_regions_without_geo c6df "bairro" 20).2 =
      ((buckets 20 c6blocks [] 0).map
        (fun bk => (bucketLabel bk, RVal.names (bk.map (·.1))))) ++
        [("__source__", RVal.src "fallback")] ∧
    ((buckets 20 c6blocks [] 0).map (fun bk => bk.map (·.1))).flatten =
      c6blocks.map (·.1) ∧
    (∀ bk ∈ (buckets 20 c6blocks [] 0).dropLast, 20 ≤ (bk.map (·.2)).sum) :=
  (C6_fallback_buckets).1 c6df "bairro" 20 c6blocks (by decide) (by decide)

/-! ### Claim C1: order of frontier pops -/

theorem sortByCount_sorted (counts : Counts) (m : IdByName) (ids : List Nat) :
    (sortByCount counts m ids).Sorted
      (fun a c => countOf counts (name_by_id a m) ≤ countOf counts (name_by_id c m)) := by
  unfold sortByCount
  letI : IsTotal Nat
      (fun a c => countOf counts (name_by_id a m) ≤ countOf counts (name_by_id c m)) :=
    ⟨fun a b => Nat.le_total _ _⟩
  letI : IsTrans Nat
      (fun a c => countOf counts (name_by_id a m) ≤ countOf counts (name_by_id c m)) :=
    ⟨fun _ _ _ hab hbc => Nat.le_trans hab hbc⟩
  exact List.sorted_insertionSort _ ids

theorem mem_sortByCount {counts : Counts} {m : IdByName} {ids : List Nat} {x : Nat}
    (h : x ∈ sortByCount counts m ids) : x ∈ ids :=
  (List.perm_insertionSort _ ids).subset h

theorem growStep_frontier_nil {counts : Counts} {adj : Adjacency} {m : IdByName}
    {s : GrowState} (h : s.frontier = []) : growStep counts adj m s = s := by
  unfold growStep
  rw [h]

theorem growStep_skip {counts : Counts} {adj : Adjacency} {m : IdByName}
    {s : GrowState} {nid : Nat} {rest : List Nat} (h : s.frontier = nid :: rest)
    (hv : (s.visited.contains nid || s.assigned.contains nid) = true) :
    growStep counts adj m s = { s with frontier := rest, visited := nid :: s.visited } := by
  unfold growStep
  rw [h]
  simp only [hv]
  rfl

theorem growStep_add {counts : Counts} {adj : Adjacency} {m : IdByName}
    {s : GrowState} {nid : Nat} {rest : List Nat} (h : s.frontier = nid :: rest)
    (hv : (s.visited.contains nid || s.assigned.contains nid) = false) :
    growStep counts adj m s =
      { total := s.total + countOf counts (name_by_id nid m),
        frontier := rest ++ sortByCount counts m
          ((adjOf adj nid).filter
            (fun x => !(nid :: s.visited).contains x && !(nid :: s.assigned).contains x)),
        visited := nid :: s.visited,
        assigned := nid :: s.assigned,
        current := s.current ++ [nid] } := by
  unfold growStep
  rw [h]
  simp only [hv]
  rfl

theorem batchPop_none_iff : ∀ bs : List (List Nat), batchPop bs = none ↔ bs.flatten = [] := by
  intro bs
  induction bs with
  | nil => simp [batchPop]
  | cons b t ih =>
    cases b with
    | nil =>
      simp only [batchPop, List.flatten_cons, List.nil_append]
      exact ih
    | cons x xs => simp [batchPop]

theorem batchPop_flatten : ∀ (bs : List (List Nat)) (x : Nat) (t : List Nat)
    (rest : List (List Nat)), batchPop bs = some (x, t, rest) →
    bs.flatten = x :: (t ++ rest.flatten) := by
  intro bs
  induction bs with
  | nil =>
    intro x t rest h
    simp [batchPop] at h
  | cons b bs2 ih =>
    intro x t rest h
    cases b with
    | nil =>
      simp only [batchPop] at h
      rw [List.flatten_cons, List.nil_append]
      exact ih x t rest h
    | cons y ys =>
      simp only [batchPop, Option.some.injEq, Prod.mk.injEq] at h
      obtain ⟨h1, h2, h3⟩ := h
      subst h1
      subst h2
      subst h3
      rw [List.flatten_cons]
      rfl

theorem batchPop_mem : ∀ (bs : List (List Nat)) (x : Nat) (t : List Nat)
    (rest : List (List Nat)), batchPop bs = some (x, t, rest) →
    (x :: t) ∈ bs ∧ ∀ b ∈ rest, b ∈ bs := by
  intro bs
  induction bs with
  | nil =>
    intro x t rest h
    simp [batchPop] at h
  | cons b bs2 ih =>
    intro x t rest h
    cases b with
    | nil =>
      simp only [batchPop] at h
      obtain ⟨h1, h2⟩ := ih x t rest h
      exact ⟨List.mem_cons_of_mem _ h1, fun b hb => List.mem_cons_of_mem _ (h2 b hb)⟩
    | cons y ys =>
      simp only [batchPop, Option.some.injEq, Prod.mk.injEq] at h
      obtain ⟨h1, h2, h3⟩ := h
      subst h1
      subst h2
      subst h3
      exact ⟨List.mem_cons_self _ _, fun b hb => List.mem_cons_of_mem _ hb⟩

theorem bGrowStep_none {counts : Counts} {adj : Adjacency} {m : IdByName}
    {s : BGrowState} (h : batchPop s.batches = none) : bGrowStep counts adj m s = s := by
  unfold bGrowStep
  rw [h]

theorem bGrowStep_skip {counts : Counts} {adj : Adjacency} {m : IdByName}
    {s : BGrowState} {nid : Nat} {t : List Nat} {bs : List (List Nat)}
    (h : batchPop s.batches = some (nid, t, bs))
    (hv : (s.visited.contains nid || s.assigned.contains nid) = true) :
    bGrowStep counts adj m s = { s with batches := t :: bs, visited := nid :: s.visited } := by
  unfold bGrowStep
  rw [h]
  simp only [hv]
  rfl

theorem bGrowStep_add {counts : Counts} {adj : Adjacency} {m : IdByName}
    {s : BGrowState} {nid : Nat} {t : List Nat} {bs : List (List Nat)}
    (h : batchPop s.batches = some (nid, t, bs))
    (hv : (s.visited.contains nid || s.assigned.contains nid) = false) :
    bGrowStep counts adj m s =
      { total := s.total + countOf counts (name_by_id nid m),
        batches := (t :: bs) ++ [sortByCount counts m
          ((adjOf adj nid).filter
            (fun x => !(nid :: s.visited).contains x && !(nid :: s.assigned).contains x))],
        visited := nid :: s.visited,
        assigned := nid :: s.assigned,
        current := s.current ++ [nid] } := by
  unfold bGrowStep
  rw [h]
  simp only [hv]
  rfl

theorem bGrowStep_proj (counts : Counts) (adj : Adjacency) (m : IdByName) (s : BGrowState) :
    bProj (bGrowStep counts adj m s) = growStep counts adj m (bProj s) := by
  cases hp : batchPop s.batches with
  | none =>
    rw [bGrowStep_none hp, growStep_frontier_nil ((batchPop_none_iff s.batches).1 hp)]
  | some v =>
    obtain ⟨nid, t, bs⟩ := v
    have hfr : (bProj s).frontier = nid :: (t ++ bs.flatten) := batchPop_flatten _ _ _ _ hp
    by_cases hv : (s.visited.contains nid || s.assigned.contains nid) = true
    · rw [bGrowStep_skip hp hv, growStep_skip hfr hv]
      simp [bProj]
    · have hv' : (s.visited.contains nid || s.assigned.contains nid) = false := by
        simpa using hv
      rw [bGrowStep_add hp hv', growStep_add hfr hv']
      simp [bProj, List.flatten_append, List.append_assoc]

theorem bGrowStep_iterate_proj (counts : Counts) (adj : Adjacency) (m : IdByName)
    (s0 : BGrowState) : ∀ n : Nat,
    bProj ((bGrowStep counts adj m)^[n] s0) = (growStep counts adj m)^[n] (bProj s0) := by
  intro n
  induction n with
  | zero => rfl
  | succ k ih =>
    rw [Function.iterate_succ_apply', Function.iterate_succ_apply', bGrowStep_proj, ih]

theorem bGrow_start_proj (counts : Counts) (adj : Adjacency) (m : IdByName)
    (assigned0 : List Nat) (uid : Nat) (uname : String) :
    bProj (bGrow_start counts adj m assigned0 uid uname) =
      grow_start counts adj m assigned0 uid uname := by
  simp [bProj, bGrow_start, grow_start]

theorem bGrowStep_batchesSorted (counts : Counts) (adj : Adjacency) (m : IdByName)
    (s : BGrowState) (h : BatchesSorted counts m s.batches) :
    BatchesSorted counts m (bGrowStep counts adj m s).batches := by
  cases hp : batchPop s.batches with
  | none =>
    rw [bGrowStep_none hp]
    exact h
  | some v =>
    obtain ⟨nid, t, bs⟩ := v
    obtain ⟨hmem, hsub⟩ := batchPop_mem _ _ _ _ hp
    have ht := (h _ hmem).of_cons
    by_cases hv : (s.visited.contains nid || s.assigned.contains nid) = true
    · rw [bGrowStep_skip hp hv]
      intro b hb
      rcases List.mem_cons.1 hb with hb1 | hb1
      · rw [hb1]
        exact ht
      · exact h b (hsub b hb1)
    · have hv' : (s.visited.contains nid || s.assigned.contains nid) = false := by
        simpa using hv
      rw [bGrowStep_add hp hv']
      intro b hb
      rcases List.mem_append.1 hb with hb1 | hb1
      · rcases List.mem_cons.1 hb1 with hb2 | hb2
        · rw [hb2]
          exact ht
        · exact h b (hsub b hb2)
      · rw [List.mem_singleton.1 hb1]
        exact sortByCount_sorted counts m _

/-- C1 as amended: during the growth of a region the frontier is a FIFO queue
of count-sorted batches, not a globally sorted list.  The batched ghost
dynamics `bGrowStep` keeps the batch boundaries explicit — its definition pops
the head of the first nonempty batch and appends each new unit's count-sorted
fresh neighbours as one batch at the END of the queue — and (i) at every
iteration the code's `growStep` state is exactly the flattening `bProj` of the
batched state (so the code's frontier follows precisely this FIFO batch
discipline, starting from the single sorted batch of the seed's neighbours),
(ii) every batch of the batched state is internally sorted ascending by unit
count, and (iii) whenever the batched frontier pops `nid` with `t` remaining
in its batch, the code's frontier at that iteration is literally
`nid :: (t ++ rest.flatten)` — so the popped unit is minimal within its own
batch `t`, the canonical initial segment of the remaining frontier — while
the counterexample shows it need not be minimal in the whole frontier. -/
theorem C1_frontier_fifo_batches :
    (∀ (counts : Counts) (adj : Adjacency) (m : IdByName) (assigned0 : List Nat)
        (uid : Nat) (uname : String) (n : Nat),
      (growStep counts adj m)^[n] (grow_start counts adj m assigned0 uid uname) =
        bProj ((bGrowStep counts adj m)^[n] (bGrow_start counts adj m assigned0 uid uname))) ∧
    (∀ (counts : Counts) (adj : Adjacency) (m : IdByName) (assigned0 : List Nat)
        (uid : Nat) (uname : String) (n : Nat),
      BatchesSorted counts m
        ((bGrowStep counts adj m)^[n] (bGrow_start counts adj m assigned0 uid uname)).batches) ∧
    (∀ (counts : Counts) (adj : Adjacency) (m : IdByName) (assigned0 : List Nat)
        (uid : Nat) (uname : String) (n : Nat) (nid : Nat) (t : List Nat)
        (rest : List (List Nat)),
      batchPop ((bGrowStep counts adj m)^[n]
          (bGrow_start counts adj m assigned0 uid uname)).batches = some (nid, t, rest) →
      ((growStep counts adj m)^[n] (grow_start counts adj m assigned0 uid uname)).frontier =
          nid :: (t ++ rest.flatten) ∧
        ∀ y ∈ t, countOf counts (name_by_id nid m) ≤ countOf counts (name_by_id y m)) := by
  have hproj : ∀ (counts : Counts) (adj : Adjacency) (m : IdByName) (assigned0 : List Nat)
      (uid : Nat) (uname : String) (n : Nat),
      (growStep counts adj m)^[n] (grow_start counts adj m assigned0 uid uname) =
        bProj ((bGrowStep counts adj m)^[n] (bGrow_start counts adj m assigned0 uid uname)) := by
    intro counts adj m assigned0 uid uname n
    rw [bGrowStep_iterate_proj, bGrow_start_proj]
  have hsorted : ∀ (counts : Counts) (adj : Adjacency) (m : IdByName) (assigned0 : List Nat)
      (uid : Nat) (uname : String) (n : Nat),
      BatchesSorted counts m
        ((bGrowStep counts adj m)^[n] (bGrow_start counts adj m assigned0 uid uname)).batches := by
    intro counts adj m assigned0 uid uname n
    induction n with
    | zero =>
      intro b hb
      rw [List.mem_singleton.1 hb]
      exact sortByCount_sorted counts m _
    | succ k ih =>
      rw [Function.iterate_succ_apply']
      exact bGrowStep_batchesSorted counts adj m _ ih
  refine ⟨hproj, hsorted, ?_⟩
  intro counts adj m assigned0 uid uname n nid t rest hp
  constructor
  · rw [hproj counts adj m assigned0 uid uname n]
    exact batchPop_flatten _ _ _ _ hp
  · have hmem := (batchPop_mem _ _ _ _ hp).1
    have hs := hsorted counts adj m assigned0 uid uname n _ hmem
    rw [List.sorted_cons] at hs
    exact hs.1

/-- C1 counterexample: with counts S=1, D=2, B=5, C=10, adjacency S–B, S–C,
B–D and threshold 100, the region seeded at S reaches (after one loop
iteration, which added B and appended B's sorted neighbour batch [D]) the
frontier [C, D] = [3, 4].  The next iteration pops and adds C (count 10)
although D (count 2), still in the frontier, has a strictly smaller count —
so the popped unit is not minimal in the frontier, refuting the claim; the
final region member order [1, 2, 3, 4] confirms C was added before D in the
actual `_balanced_merge` run. -/
theorem C1_frontier_not_globally_sorted_cex :
    sort_values_index c1counts = ["S", "D", "B", "C"] ∧
    growStep c1counts c1adj c1idm (grow_start c1counts c1adj c1idm [] 1 "S") =
      { total := 6, frontier := [3, 4], visited := [2, 1], assigned := [2, 1],
        current := [1, 2] } ∧
    (6 < 100 ∧ ([3, 4] : List Nat) ≠ []) ∧
    (growStep c1counts c1adj c1idm
      { total := 6, frontier := [3, 4], visited := [2, 1], assigned := [2, 1],
        current := [1, 2] }).current = [1, 2, 3] ∧
    countOf c1counts (name_by_id 3 c1idm) = 10 ∧
    4 ∈ ([3, 4] : List Nat) ∧
    countOf c1counts (name_by_id 4 c1idm) = 2 ∧
    ¬ countOf c1counts (name_by_id 3 c1idm) ≤ countOf c1counts (name_by_id 4 c1idm) ∧
    (balanced_merge_acc c1counts c1adj c1idm 100).regions =
      [("região: s", [1, 2, 3, 4])] := by
  refine ⟨by decide, by decide, by decide, by decide, by decide, by decide, by decide,
    by decide, by decide⟩

theorem C1_frontier_fifo_batches_witness :
    batchPop ((bGrowStep c1counts c1adj c1idm)^[0]
        (bGrow_start c1counts c1adj c1idm [] 1 "S")).batches = some (2, [3], []) ∧
    ((growStep c1counts c1adj c1idm)^[0]
        (grow_start c1counts c1adj c1idm [] 1 "S")).frontier =
      2 :: ([3] ++ ([] : List (List Nat)).flatten) ∧
    ∀ y ∈ ([3] : List Nat),
      countOf c1counts (name_by_id 2 c1idm) ≤ countOf c1counts (name_by_id y c1idm) := by
  refine ⟨by decide, ?_, ?_⟩
  · exact (C1_frontier_fifo_batches.2.2 c1counts c1adj c1idm [] 1 "S" 0 2 [3] []
      (by decide)).1
  · exact (C1_frontier_fifo_batches.2.2 c1counts c1adj c1idm [] 1 "S" 0 2 [3] []
      (by decide)).2

/-! ### Claim C3: regional connectivity -/

theorem chainConn_nil (adj : Adjacency) : ChainConn adj [] := by
  intro i hi h0
  simp at hi

theorem chainConn_single (adj : Adjacency) (u : Nat) : ChainConn adj [u] := by
  intro i hi h0
  simp only [List.length_singleton] at hi
  exact absurd h0 (by omega)

theorem chainConn_append (adj : Adjacency) (ms : List Nat) (x : Nat)
    (hc : ChainConn adj ms) (hx : ∃ c ∈ ms, x ∈ adjOf adj c) :
    ChainConn adj (ms ++ [x]) := by
  intro i hi h0
  rw [List.length_append, List.length_singleton] at hi
  by_cases him : i < ms.length
  · obtain ⟨j, hj, hji, hmem⟩ := hc i him h0
    refine ⟨j, ?_, hji, ?_⟩
    · rw [List.length_append, List.length_singleton]
      omega
    · rw [List.getElem_append_left him, List.getElem_append_left hj]
      exact hmem
  · have hieq : i = ms.length := by omega
    obtain ⟨c, hcm, hcx⟩ := hx
    obtain ⟨j, hj, hje⟩ := List.getElem_of_mem hcm
    refine ⟨j, ?_, by omega, ?_⟩
    · rw [List.length_append, List.length_singleton]
      omega
    · have hi2 : i < (ms ++ [x]).length := by
        rw [List.length_append, List.length_singleton]
        omega
      have hj2 : j < (ms ++ [x]).length := by
        rw [List.length_append, List.length_singleton]
        omega
      have h1 : (ms ++ [x])[i] = x := by
        rw [List.getElem_append_right (by omega)]
        simp [hieq]
      have h2 : (ms ++ [x])[j] = c := by
        rw [List.getElem_append_left hj]
        exact hje
      rw [h1, h2]
      exact hcx

theorem growStep_conn (counts : Counts) (adj : Adjacency) (m : IdByName) (s : GrowState)
    (h : FrontierConn adj s) : FrontierConn adj (growStep counts adj m s) := by
  obtain ⟨hfr, hcc⟩ := h
  cases hf : s.frontier with
  | nil =>
    rw [growStep_frontier_nil hf]
    exact ⟨hfr, hcc⟩
  | cons nid rest =>
    by_cases hv : (s.visited.contains nid || s.assigned.contains nid) = true
    · rw [growStep_skip hf hv]
      refine ⟨?_, hcc⟩
      intro y hy
      exact hfr y (by rw [hf]; exact List.mem_cons_of_mem _ hy)
    · rw [growStep_add hf (by simpa using hv)]
      have hnid : ∃ c ∈ s.current, nid ∈ adjOf adj c :=
        hfr nid (by rw [hf]; exact List.mem_cons_self _ _)
      constructor
      · intro y hy
        rcases List.mem_append.1 hy with hy1 | hy1
        · obtain ⟨c, hcm, hcy⟩ := hfr y (by rw [hf]; exact List.mem_cons_of_mem _ hy1)
          exact ⟨c, List.mem_append_left _ hcm, hcy⟩
        · have hy2 := mem_sortByCount hy1
          have hy3 := List.mem_of_mem_filter hy2
          exact ⟨nid, List.mem_append_right _ (List.mem_singleton.2 rfl), hy3⟩
      · exact chainConn_append adj s.current nid hcc hnid

theorem growLoop_conn (counts : Counts) (adj : Adjacency) (m : IdByName) (min_tx : Nat) :
    ∀ (fuel : Nat) (s : GrowState), FrontierConn adj s →
      FrontierConn adj (growLoop counts adj m min_tx fuel s) := by
  intro fuel
  induction fuel with
  | zero => intro s h; exact h
  | succ k ih =>
    intro s h
    unfold growLoop
    by_cases hc : s.total < min_tx ∧ s.frontier ≠ []
    · rw [if_pos hc]
      exact ih _ (growStep_conn counts adj m s h)
    · rw [if_neg hc]
      exact h

theorem grow_start_conn (counts : Counts) (adj : Adjacency) (m : IdByName)
    (assigned0 : List Nat) (uid : Nat) (uname : String) :
    FrontierConn adj (grow_start counts adj m assigned0 uid uname) := by
  constructor
  · intro y hy
    exact ⟨uid, List.mem_singleton.2 rfl, mem_sortByCount hy⟩
  · exact chainConn_single adj uid

theorem greedy_unit_none {counts : Counts} {adj : Adjacency} {m : IdByName} {min_tx : Nat}
    {acc : MergeAcc} {uname : String} (h : idOf m uname = none) :
    greedy_unit counts adj m min_tx acc uname = acc := by
  unfold greedy_unit
  rw [h]

theorem greedy_unit_skip {counts : Counts} {adj : Adjacency} {m : IdByName} {min_tx : Nat}
    {acc : MergeAcc} {uname : String} {uid : Nat} (h : idOf m uname = some uid)
    (ha : acc.assigned.contains uid = true) :
    greedy_unit counts adj m min_tx acc uname = acc := by
  unfold greedy_unit
  rw [h]
  show (if acc.assigned.contains uid = true then _ else _) = acc
  rw [if_pos ha]

theorem greedy_unit_grow {counts : Counts} {adj : Adjacency} {m : IdByName} {min_tx : Nat}
    {acc : MergeAcc} {uname : String} {uid : Nat} (h : idOf m uname = some uid)
    (ha : acc.assigned.contains uid = false) :
    greedy_unit counts adj m min_tx acc uname =
      { assigned := (growLoop counts adj m min_tx
          ((grow_start counts adj m acc.assigned uid uname).frontier.length + adjSize adj + 1)
          (grow_start counts adj m acc.assigned uid uname)).assigned,
        regions := dictSet acc.regions (region_label uname)
          (growLoop counts adj m min_tx
            ((grow_start counts adj m acc.assigned uid uname).frontier.length + adjSize adj + 1)
            (grow_start counts adj m acc.assigned uid uname)).current } := by
  unfold greedy_unit
  rw [h]
  show (if acc.assigned.contains uid = true then _ else _) = _
  rw [if_neg (by rw [ha]; simp)]

theorem greedy_unit_conn (counts : Counts) (adj : Adjacency) (m : IdByName) (min_tx : Nat)
    (acc : MergeAcc) (uname : String) (h : RegionsConn adj acc.regions) :
    RegionsConn adj (greedy_unit counts adj m min_tx acc uname).regions := by
  cases hid : idOf m uname with
  | none =>
    rw [greedy_unit_none hid]
    exact h
  | some uid =>
    by_cases ha : acc.assigned.contains uid = true
    · rw [greedy_unit_skip hid ha]
      exact h
    · rw [greedy_unit_grow hid (by simpa using ha)]
      intro p hp
      rcases mem_dictSet hp with hp1 | hp1
      · exact h p hp1
      · rw [hp1]
        exact (growLoop_conn counts adj m min_tx _ _
          (grow_start_conn counts adj m acc.assigned uid uname)).2

/-- C3 as amended: connectivity holds for the regions produced by the greedy
flood-fill phase of `_balanced_merge` (before the straggler pass): every
member list carries a spanning-tree certificate — each member after the first
is adjacent, in the adjacency table, to some earlier member of the same
region.  The straggler pass (lines 281–295) appends leftover units without
consulting adjacency, which is what the counterexample exploits. -/
theorem C3_greedy_connectivity (counts : Counts) (adj : Adjacency) (m : IdByName)
    (min_tx : Nat) :
    ∀ p ∈ (greedy_phase counts adj m min_tx).regions, ChainConn adj p.2 := by
  unfold greedy_phase
  exact @List.foldlRecOn MergeAcc String (fun acc => RegionsConn adj acc.regions)
    (sort_values_index counts) (greedy_unit counts adj m min_tx) ⟨[], []⟩
    (by intro p hp; simp at hp)
    (fun acc hacc uname _ => greedy_unit_conn counts adj m min_tx acc uname hacc)

theorem C3_greedy_connectivity_witness : ChainConn c5adj [1, 2, 3] :=
  C3_greedy_connectivity c5counts c5adj c5idm 200 ("região: a", [1, 2, 3]) (by decide)

/-- C3 counterexample: with two units A (id 1) and B (id 2), an empty
adjacency table, empty counts and threshold 1, the straggler pass first
creates the singleton region `região: a = [1]` and then appends the second
straggler to it, producing a 2-member region although 1 and 2 are not
adjacent — no spanning tree over {1, 2} exists in the (empty) adjacency
graph, refuting the claim for `_balanced_merge` as a whole. -/
theorem C3_connectivity_cex :
    (balanced_merge_acc [] [] [("A", 1), ("B", 2)] 1).regions =
      [("região: a", [1, 2])] ∧
    adjOf [] 1 = [] ∧ adjOf [] 2 = [] ∧
    ¬ ChainConn [] [1, 2] := by
  refine ⟨by decide, rfl, rfl, ?_⟩
  intro h
  obtain ⟨j, hj, hji, hmem⟩ := h 1 (by decide) (by decide)
  simp [adjOf] at hmem

/-! ### Claim C10: the straggler pass -/

theorem chooseBest_go (counts : Counts) (m : IdByName) :
    ∀ (l : List (String × List Nat)) (bl : String) (bt : Nat),
      (l.foldl (fun best p =>
          match best with
          | none => some (p.1, region_total counts m p.2)
          | some (bl, bt) =>
            if region_total counts m p.2 < bt then some (p.1, region_total counts m p.2)
            else some (bl, bt)) (some (bl, bt)) = some (bl, bt) ∧
        ∀ q ∈ l, bt ≤ region_total counts m q.2) ∨
      (∃ pre v post, l = pre ++ v :: post ∧
        l.foldl (fun best p =>
          match best with
          | none => some (p.1, region_total counts m p.2)
          | some (bl, bt) =>
            if region_total counts m p.2 < bt then some (p.1, region_total counts m p.2)
            else some (bl, bt)) (some (bl, bt)) = some (v.1, region_total counts m v.2) ∧
        region_total counts m v.2 < bt ∧
        (∀ q ∈ pre, region_total counts m v.2 < region_total counts m q.2) ∧
        (∀ q ∈ l, region_total counts m v.2 ≤ region_total counts m q.2)) := by
  intro l
  induction l with
  | nil =>
    intro bl bt
    left
    exact ⟨rfl, by simp⟩
  | cons q l ih =>
    intro bl bt
    rw [List.foldl_cons]
    by_cases hq : region_total counts m q.2 < bt
    · rw [show (match some (bl, bt) with
          | none => some (q.1, region_total counts m q.2)
          | some (bl, bt) =>
            if region_total counts m q.2 < bt then some (q.1, region_total counts m q.2)
            else some (bl, bt)) = some (q.1, region_total counts m q.2) by
          simp only [if_pos hq]]
      rcases ih q.1 (region_total counts m q.2) with ⟨heq, hall⟩ | ⟨pre, v, post, hsplit, heq, hlt, hpre, hall⟩
      · right
        refine ⟨[], q, l, by simp, heq, hq, by simp, ?_⟩
        intro p hp
        rcases List.mem_cons.1 hp with hp1 | hp1
        · rw [hp1]
        · exact hall p hp1
      · right
        refine ⟨q :: pre, v, post, by rw [hsplit]; rfl, heq, lt_trans hlt hq, ?_, ?_⟩
        · intro p hp
          rcases List.mem_cons.1 hp with hp1 | hp1
          · rw [hp1]
            exact hlt
          · exact hpre p hp1
        · intro p hp
          rcases List.mem_cons.1 hp with hp1 | hp1
          · rw [hp1]
            exact le_of_lt hlt
          · exact hall p hp1
    · rw [show (match some (bl, bt) with
          | none => some (q.1, region_total counts m q.2)
          | some (bl, bt) =>
            if region_total counts m q.2 < bt then some (q.1, region_total counts m q.2)
            else some (bl, bt)) = some (bl, bt) by
          simp only [if_neg hq]]
      rcases ih bl bt with ⟨heq, hall⟩ | ⟨pre, v, post, hsplit, heq, hlt, hpre, hall⟩
      · left
        refine ⟨heq, ?_⟩
        intro p hp
        rcases List.mem_cons.1 hp with hp1 | hp1
        · rw [hp1]
          omega
        · exact hall p hp1
      · right
        refine ⟨q :: pre, v, post, by rw [hsplit]; rfl, heq, hlt, ?_, ?_⟩
        · intro p hp
          rcases List.mem_cons.1 hp with hp1 | hp1
          · rw [hp1]
            omega
          · exact hpre p hp1
        · intro p hp
          rcases List.mem_cons.1 hp with hp1 | hp1
          · rw [hp1]
            omega
          · exact hall p hp1

theorem chooseBest_none_iff (counts : Counts) (m : IdByName)
    (regions : List (String × List Nat)) :
    chooseBest counts m regions = none ↔ regions = [] := by
  constructor
  · intro h
    cases hr : regions with
    | nil => rfl
    | cons q l =>
      rw [hr] at h
      unfold chooseBest at h
      rw [List.foldl_cons] at h
      rcases chooseBest_go counts m l q.1 (region_total counts m q.2) with ⟨heq, _⟩ |
        ⟨pre, v, post, _, heq, _, _, _⟩
      · rw [show (match (none : Option (String × Nat)) with
            | none => some (q.1, region_total counts m q.2)
            | some (bl, bt) =>
              if region_total counts m q.2 < bt then some (q.1, region_total counts m q.2)
              else some (bl, bt)) = some (q.1, region_total counts m q.2) from rfl, heq] at h
        cases h
      · rw [show (match (none : Option (String × Nat)) with
            | none => some (q.1, region_total counts m q.2)
            | some (bl, bt) =>
              if region_total counts m q.2 < bt then some (q.1, region_total counts m q.2)
              else some (bl, bt)) = some (q.1, region_total counts m q.2) from rfl, heq] at h
        cases h
  · intro h
    rw [h]
    rfl

theorem chooseBest_spec (counts : Counts) (m : IdByName)
    (regions : List (String × List Nat)) (best : String) (bt : Nat)
    (h : chooseBest counts m regions = some (best, bt)) :
    ∃ pre v post, regions = pre ++ (best, v) :: post ∧
      bt = region_total counts m v ∧
      (∀ q ∈ pre, region_total counts m v < region_total counts m q.2) ∧
      (∀ q ∈ regions, region_total counts m v ≤ region_total counts m q.2) := by
  cases hr : regions with
  | nil =>
    rw [hr] at h
    cases h
  | cons q l =>
    rw [hr] at h
    unfold chooseBest at h
    rw [List.foldl_cons,
      show (match (none : Option (String × Nat)) with
        | none => some (q.1, region_total counts m q.2)
        | some (bl, bt) =>
          if region_total counts m q.2 < bt then some (q.1, region_total counts m q.2)
          else some (bl, bt)) = some (q.1, region_total counts m q.2) from rfl] at h
    rcases chooseBest_go counts m l q.1 (region_total counts m q.2) with ⟨heq, hall⟩ |
      ⟨pre, v, post, hsplit, heq, hlt, hpre, hall⟩
    · rw [heq] at h
      have h2 := Option.some.inj h
      have hb : q.1 = best := congrArg Prod.fst h2
      have ht : region_total counts m q.2 = bt := congrArg Prod.snd h2
      refine ⟨[], q.2, l, ?_, ?_, by simp, ?_⟩
      · have hqq : (best, q.2) = q := by
          rw [← hb]
        rw [hqq]
        simp
      · rw [← ht]
      · intro p hp
        rcases List.mem_cons.1 hp with hp1 | hp1
        · rw [hp1]
        · exact hall p hp1
    · rw [heq] at h
      have h2 := Option.some.inj h
      have hb : v.1 = best := congrArg Prod.fst h2
      have ht : region_total counts m v.2 = bt := congrArg Prod.snd h2
      refine ⟨q :: pre, v.2, post, ?_, ?_, ?_, ?_⟩
      · have hvv : (best, v.2) = v := by
          rw [← hb]
        rw [hvv, hsplit]
        rfl
      · rw [← ht]
      · intro p hp
        rcases List.mem_cons.1 hp with hp1 | hp1
        · rw [hp1]
          exact hlt
        · exact hpre p hp1
      · intro p hp
        rcases List.mem_cons.1 hp with hp1 | hp1
        · rw [hp1]
          exact le_of_lt hlt
        · exact hall p hp1

theorem straggler_step_none {counts : Counts} {m : IdByName} {acc : MergeAcc} {uid : Nat}
    (h : chooseBest counts m acc.regions = none) :
    straggler_step counts m acc uid =
      { assigned := uid :: acc.assigned,
        regions := dictSet acc.regions (region_label (name_by_id uid m)) [uid] } := by
  unfold straggler_step
  rw [h]

theorem straggler_step_some {counts : Counts} {m : IdByName} {acc : MergeAcc} {uid : Nat}
    {best : String} {bt : Nat} (h : chooseBest counts m acc.regions = some (best, bt)) :
    straggler_step counts m acc uid =
      { assigned := uid :: acc.assigned,
        regions := acc.regions.map
          (fun p => if p.1 == best then (p.1, p.2 ++ [uid]) else p) } := by
  unfold straggler_step
  rw [h]

theorem map_update_unique (pre post : List (String × List Nat)) (v : List Nat)
    (best : String) (uid : Nat)
    (hpre : ∀ p ∈ pre, p.1 ≠ best) (hpost : ∀ p ∈ post, p.1 ≠ best) :
    (pre ++ (best, v) :: post).map
        (fun p => if p.1 == best then (p.1, p.2 ++ [uid]) else p) =
      pre ++ (best, v ++ [uid]) :: post := by
  rw [List.map_append, List.map_cons]
  have h1 : pre.map (fun p => if p.1 == best then (p.1, p.2 ++ [uid]) else p) = pre := by
    induction pre with
    | nil => rfl
    | cons p t iht =>
      rw [List.map_cons, if_neg (by simpa using hpre p (List.mem_cons_self _ _))]
      rw [iht (fun p hp => hpre p (List.mem_cons_of_mem _ hp))]
  have h2 : post.map (fun p => if p.1 == best then (p.1, p.2 ++ [uid]) else p) = post := by
    induction post with
    | nil => rfl
    | cons p t iht =>
      rw [List.map_cons, if_neg (by simpa using hpost p (List.mem_cons_self _ _))]
      rw [iht (fun p hp => hpost p (List.mem_cons_of_mem _ hp))]
  rw [h1, h2, if_pos (by simp)]

/-- C10: in the straggler pass, `best_region` selection and the append are as
the claim describes: (a) no region is selected exactly when no region exists
(and only then is a singleton region created, labelled from the straggler's
own name); (b) the selected region is the one whose member total — recomputed
from the current member lists, hence including previously appended
stragglers — is smallest, with every earlier-created region having a strictly
larger total (ties go to the earliest region, since the code updates only on
a strict decrease); (c) the straggler is appended at the end of exactly that
region, all other regions unchanged, and is marked assigned. -/
theorem C10_straggler_balancing :
    (∀ (counts : Counts) (m : IdByName) (regions : List (String × List Nat)),
      chooseBest counts m regions = none ↔ regions = []) ∧
    (∀ (counts : Counts) (m : IdByName) (acc : MergeAcc) (uid : Nat),
      acc.regions = [] →
      straggler_step counts m acc uid =
        { assigned := uid :: acc.assigned,
          regions := acc.regions ++ [(region_label (name_by_id uid m), [uid])] }) ∧
    (∀ (counts : Counts) (m : IdByName) (acc : MergeAcc) (uid : Nat) (best : String) (bt : Nat),
      chooseBest counts m acc.regions = some (best, bt) →
      (acc.regions.map (·.1)).Nodup →
      ∃ pre v post, acc.regions = pre ++ (best, v) :: post ∧
        bt = region_total counts m v ∧
        (∀ q ∈ pre, region_total counts m v < region_total counts m q.2) ∧
        (∀ q ∈ acc.regions, region_total counts m v ≤ region_total counts m q.2) ∧
        (straggler_step counts m acc uid).regions = pre ++ (best, v ++ [uid]) :: post ∧
        (straggler_step counts m acc uid).assigned = uid :: acc.assigned) := by
  refine ⟨chooseBest_none_iff, ?_, ?_⟩
  · intro counts m acc uid h
    rw [straggler_step_none ((chooseBest_none_iff counts m acc.regions).2 h), h]
    rfl
  · intro counts m acc uid best bt hc hnodup
    obtain ⟨pre, v, post, hsplit, hbt, hpre, hall⟩ := chooseBest_spec counts m acc.regions best bt hc
    have hkeys : (pre.map (·.1) ++ best :: post.map (·.1)).Nodup := by
      have := hnodup
      rw [hsplit, List.map_append, List.map_cons] at this
      exact this
    rw [List.nodup_append] at hkeys
    have hpre' : ∀ p ∈ pre, p.1 ≠ best := by
      intro p hp he
      exact (hkeys.2.2 (he ▸ List.mem_map_of_mem (·.1) hp) (List.mem_cons_self _ _)).elim
    have hpost' : ∀ p ∈ post, p.1 ≠ best := by
      intro p hp he
      have := hkeys.2.1
      rw [List.nodup_cons] at this
      exact this.1 (he ▸ List.mem_map_of_mem (·.1) hp)
    refine ⟨pre, v, post, hsplit, hbt, hpre, hall, ?_, ?_⟩
    · rw [straggler_step_some hc]
      show (acc.regions.map (fun p => if p.1 == best then (p.1, p.2 ++ [uid]) else p)) = _
      rw [hsplit]
      exact map_update_unique pre post v best uid hpre' hpost'
    · rw [straggler_step_some hc]

theorem C10_straggler_balancing_witness :
    ∃ pre v post, c10acc.regions = pre ++ ("região: b", v) :: post ∧
      (0 : Nat) = region_total c10counts c10idm v ∧
      (∀ q ∈ pre, region_total c10counts c10idm v < region_total c10counts c10idm q.2) ∧
      (∀ q ∈ c10acc.regions,
        region_total c10counts c10idm v ≤ region_total c10counts c10idm q.2) ∧
      (straggler_step c10counts c10idm c10acc 3).regions =
        pre ++ ("região: b", v ++ [3]) :: post ∧
      (straggler_step c10counts c10idm c10acc 3).assigned = 3 :: c10acc.assigned :=
  C10_straggler_balancing.2.2 c10counts c10idm c10acc 3 "região: b" 0 (by decide) (by decide)

/-! ### Claim C2: coverage (no unit dropped, none duplicated) -/

theorem growLoop_pres {counts : Counts} {adj : Adjacency} {m : IdByName} {min_tx : Nat}
    {P : GrowState → Prop} (hstep : ∀ s, P s → P (growStep counts adj m s)) :
    ∀ (fuel : Nat) (s : GrowState), P s → P (growLoop counts adj m min_tx fuel s) := by
  intro fuel
  induction fuel with
  | zero => intro s h; exact h
  | succ k ih =>
    intro s h
    unfold growLoop
    by_cases hc : s.total < min_tx ∧ s.frontier ≠ []
    · rw [if_pos hc]
      exact ih _ (hstep s h)
    · rw [if_neg hc]
      exact h

theorem growStep_assigned_mono (counts : Counts) (adj : Adjacency) (m : IdByName)
    (s : GrowState) {x : Nat} (h : x ∈ s.assigned) :
    x ∈ (growStep counts adj m s).assigned := by
  cases hf : s.frontier with
  | nil => rw [growStep_frontier_nil hf]; exact h
  | cons nid rest =>
    by_cases hv : (s.visited.contains nid || s.assigned.contains nid) = true
    · rw [growStep_skip hf hv]
      exact h
    · rw [growStep_add hf (by simpa using hv)]
      exact List.mem_cons_of_mem _ h

theorem growStep_perm (counts : Counts) (adj : Adjacency) (m : IdByName) (A0 : List Nat)
    (s : GrowState) (h : s.assigned.Nodup ∧ s.assigned.Perm (s.current ++ A0)) :
    (growStep counts adj m s).assigned.Nodup ∧
      (growStep counts adj m s).assigned.Perm ((growStep counts adj m s).current ++ A0) := by
  obtain ⟨h1, h2⟩ := h
  cases hf : s.frontier with
  | nil => rw [growStep_frontier_nil hf]; exact ⟨h1, h2⟩
  | cons nid rest =>
    by_cases hv : (s.visited.contains nid || s.assigned.contains nid) = true
    · rw [growStep_skip hf hv]
      exact ⟨h1, h2⟩
    · rw [growStep_add hf (by simpa using hv)]
      have hna : nid ∉ s.assigned := by
        simp only [Bool.or_eq_true, not_or] at hv
        simpa using hv.2
      refine ⟨List.nodup_cons.2 ⟨hna, h1⟩, ?_⟩
      show (nid :: s.assigned).Perm ((s.current ++ [nid]) ++ A0)
      have e1 : (s.current ++ [nid]) ++ A0 = s.current ++ nid :: A0 := by
        simp
      rw [e1]
      exact (h2.cons nid).trans List.perm_middle.symm

theorem key_not_mem_any {α : Type} (d : List (String × α)) (k : String)
    (h : k ∉ d.map (·.1)) : d.any (fun p => p.1 == k) = false := by
  rw [← Bool.not_eq_true, List.any_eq_true]
  rintro ⟨p, hp, hpe⟩
  have hpk : p.1 = k := by simpa using hpe
  exact h (hpk ▸ List.mem_map_of_mem (·.1) hp)

theorem mem_keys_of_idOf {m : IdByName} {n : String} {uid : Nat}
    (h : idOf m n = some uid) : n ∈ m.map (·.1) ∧ (n, uid) ∈ m := by
  unfold idOf dictGet? at h
  cases hf : m.find? (fun p => p.1 == n) with
  | none => rw [hf] at h; cases h
  | some q =>
    rw [hf] at h
    have hq1 : q.1 = n := by simpa using List.find?_some hf
    have hq2 : q.2 = uid := by simpa using h
    have hqm := List.mem_of_find?_eq_some hf
    constructor
    · rw [← hq1]
      exact List.mem_map_of_mem _ hqm
    · rw [← hq1, ← hq2]
      exact hqm

/-- Invariant of the greedy phase: assigned ids are distinct, the flattened
region members are a permutation of the assigned ids, region keys are
distinct, and every region key is the label of some seeded name whose id is
assigned. -/
theorem greedy_unit_inv (counts : Counts) (adj : Adjacency) (m : IdByName) (min_tx : Nat)
    (hlabels : (m.map (fun p => region_label p.1)).Nodup)
    (acc : MergeAcc) (uname : String)
    (h : acc.assigned.Nodup ∧ ((acc.regions.map (·.2)).flatten).Perm acc.assigned ∧
      (acc.regions.map (·.1)).Nodup ∧
      ∀ l ∈ acc.regions.map (·.1), ∃ n uid, idOf m n = some uid ∧
        l = region_label n ∧ uid ∈ acc.assigned) :
    (greedy_unit counts adj m min_tx acc uname).assigned.Nodup ∧
      (((greedy_unit counts adj m min_tx acc uname).regions.map (·.2)).flatten).Perm
        (greedy_unit counts adj m min_tx acc uname).assigned ∧
      ((greedy_unit counts adj m min_tx acc uname).regions.map (·.1)).Nodup ∧
      ∀ l ∈ (greedy_unit counts adj m min_tx acc uname).regions.map (·.1),
        ∃ n uid, idOf m n = some uid ∧ l = region_label n ∧
          uid ∈ (greedy_unit counts adj m min_tx acc uname).assigned := by
  obtain ⟨hA, hP, hK, hL⟩ := h
  cases hid : idOf m uname with
  | none =>
    rw [greedy_unit_none hid]
    exact ⟨hA, hP, hK, hL⟩
  | some uid =>
    by_cases ha : acc.assigned.contains uid = true
    · rw [greedy_unit_skip hid ha]
      exact ⟨hA, hP, hK, hL⟩
    · have ha' : uid ∉ acc.assigned := by simpa using ha
      rw [greedy_unit_grow hid (by simpa using ha)]
      set s0 := grow_start counts adj m acc.assigned uid uname with hs0
      set s1 := growLoop counts adj m min_tx (s0.frontier.length + adjSize adj + 1) s0 with hs1
      have hG : s1.assigned.Nodup ∧ s1.assigned.Perm (s1.current ++ acc.assigned) := by
        rw [hs1]
        refine growLoop_pres (growStep_perm counts adj m acc.assigned) _ s0 ?_
        constructor
        · exact List.nodup_cons.2 ⟨ha', hA⟩
        · exact List.Perm.refl _
      have hmono : ∀ x ∈ s0.assigned, x ∈ s1.assigned := by
        rw [hs1]
        refine @growLoop_pres counts adj m min_tx
          (fun s => ∀ x ∈ s0.assigned, x ∈ s.assigned) ?_ _ s0 (fun x hx => hx)
        intro s hs x hx
        exact growStep_assigned_mono counts adj m s (hs x hx)
      have hfreshlab : region_label uname ∉ acc.regions.map (·.1) := by
        intro hmem
        obtain ⟨n, uid', hidn, heql, huida⟩ := hL (region_label uname) hmem
        have h1 := mem_keys_of_idOf hid
        have h2 := mem_keys_of_idOf hidn
        have hun : uname = n := by
          have hIO := List.inj_on_of_nodup_map hlabels
          have hinj := hIO h1.2 h2.2 (by simpa using heql)
          simpa using congrArg Prod.fst hinj
        rw [hun] at hid
        rw [hid] at hidn
        have : uid = uid' := by simpa using hidn
        rw [this] at ha'
        exact ha' huida
      have hset : dictSet acc.regions (region_label uname) s1.current =
          acc.regions ++ [(region_label uname, s1.current)] :=
        dictSet_fresh _ _ _ (key_not_mem_any _ _ hfreshlab)
      rw [hset]
      refine ⟨hG.1, ?_, ?_, ?_⟩
      · show (((acc.regions ++ [(region_label uname, s1.current)]).map (·.2)).flatten).Perm
          s1.assigned
        rw [List.map_append, List.flatten_append]
        simp only [List.map_cons, List.map_nil, List.flatten_cons, List.flatten_nil,
          List.append_nil]
        exact ((hP.append_right s1.current).trans List.perm_append_comm).trans hG.2.symm
      · show ((acc.regions ++ [(region_label uname, s1.current)]).map (·.1)).Nodup
        rw [List.map_append, List.nodup_append]
        refine ⟨hK, by simp, ?_⟩
        intro a ha1 ha2
        simp only [List.map_cons, List.map_nil, List.mem_singleton] at ha2
        rw [ha2] at ha1
        exact hfreshlab ha1
      · show ∀ l ∈ (acc.regions ++ [(region_label uname, s1.current)]).map (·.1), _
        intro l hl
        rw [List.map_append, List.mem_append] at hl
        rcases hl with hl1 | hl1
        · obtain ⟨n, uid', hidn, heql, huida⟩ := hL l hl1
          exact ⟨n, uid', hidn, heql, hmono uid' (List.mem_cons_of_mem _ huida)⟩
        · simp only [List.map_cons, List.map_nil, List.mem_singleton] at hl1
          exact ⟨uname, uid, hid, hl1, hmono uid (List.mem_cons_self _ _)⟩

theorem greedy_phase_inv (counts : Counts) (adj : Adjacency) (m : IdByName) (min_tx : Nat)
    (hlabels : (m.map (fun p => region_label p.1)).Nodup) :
    (greedy_phase counts adj m min_tx).assigned.Nodup ∧
      (((greedy_phase counts adj m min_tx).regions.map (·.2)).flatten).Perm
        (greedy_phase counts adj m min_tx).assigned ∧
      ((greedy_phase counts adj m min_tx).regions.map (·.1)).Nodup := by
  unfold greedy_phase
  have h := @List.foldlRecOn MergeAcc String
    (fun acc => acc.assigned.Nodup ∧ ((acc.regions.map (·.2)).flatten).Perm acc.assigned ∧
      (acc.regions.map (·.1)).Nodup ∧
      ∀ l ∈ acc.regions.map (·.1), ∃ n uid, idOf m n = some uid ∧
        l = region_label n ∧ uid ∈ acc.assigned)
    (sort_values_index counts) (greedy_unit counts adj m min_tx) ⟨[], []⟩
    ⟨List.nodup_nil, List.Perm.refl _, List.nodup_nil, by intro l hl; simp at hl⟩
    (fun acc hacc uname _ => greedy_unit_inv counts adj m min_tx hlabels acc uname
      ⟨hacc.1, hacc.2.1, hacc.2.2.1, hacc.2.2.2⟩)
  exact ⟨h.1, h.2.1, h.2.2.1⟩

theorem straggler_step_assigned (counts : Counts) (m : IdByName) (acc : MergeAcc) (uid : Nat) :
    (straggler_step counts m acc uid).assigned = uid :: acc.assigned := by
  unfold straggler_step
  cases chooseBest counts m acc.regions with
  | none => rfl
  | some q =>
    obtain ⟨b, t⟩ := q
    rfl

theorem straggler_fold_inv (counts : Counts) (m : IdByName) :
    ∀ (l : List Nat) (acc : MergeAcc),
      l.Nodup → (∀ u ∈ l, u ∉ acc.assigned) →
      acc.assigned.Nodup → ((acc.regions.map (·.2)).flatten).Perm acc.assigned →
      (acc.regions.map (·.1)).Nodup →
      ((l.foldl (straggler_step counts m) acc).assigned.Nodup ∧
        (((l.foldl (straggler_step counts m) acc).regions.map (·.2)).flatten).Perm
          (l.foldl (straggler_step counts m) acc).assigned ∧
        ((l.foldl (straggler_step counts m) acc).regions.map (·.1)).Nodup) := by
  intro l
  induction l with
  | nil =>
    intro acc _ _ hA hP hK
    exact ⟨hA, hP, hK⟩
  | cons uid rest ih =>
    intro acc hnd hdisj hA hP hK
    rw [List.foldl_cons]
    have hnd' := List.nodup_cons.1 hnd
    have huid : uid ∉ acc.assigned := hdisj uid (List.mem_cons_self _ _)
    cases hcb : chooseBest counts m acc.regions with
    | none =>
      have hreg : acc.regions = [] := (chooseBest_none_iff counts m acc.regions).1 hcb
      have hass : acc.assigned = [] := by
        rw [hreg] at hP
        simpa using hP.symm.eq_nil
      rw [straggler_step_none hcb, hreg, hass]
      rw [show dictSet ([] : List (String × List Nat)) (region_label (name_by_id uid m)) [uid] =
        [(region_label (name_by_id uid m), [uid])] from dictSet_fresh _ _ _ rfl]
      apply ih
      · exact hnd'.2
      · intro u hu
        simp only [List.mem_cons, List.not_mem_nil, or_false]
        intro he
        exact hnd'.1 (he ▸ hu)
      · exact List.nodup_cons.2 ⟨by simp, List.nodup_nil⟩
      · simp
      · simp
    | some q =>
      obtain ⟨best, bt⟩ := q
      obtain ⟨pre, v, post, hsplit, _, _, _⟩ := chooseBest_spec counts m acc.regions best bt hcb
      have hkeys : (pre.map (·.1) ++ best :: post.map (·.1)).Nodup := by
        have hh := hK
        rw [hsplit, List.map_append, List.map_cons] at hh
        exact hh
      rw [List.nodup_append] at hkeys
      have hpre' : ∀ p ∈ pre, p.1 ≠ best := by
        intro p hp he
        exact (hkeys.2.2 (he ▸ List.mem_map_of_mem (·.1) hp) (List.mem_cons_self _ _)).elim
      have hpost' : ∀ p ∈ post, p.1 ≠ best := by
        intro p hp he
        have hcns := hkeys.2.1
        rw [List.nodup_cons] at hcns
        exact hcns.1 (he ▸ List.mem_map_of_mem (·.1) hp)
      rw [straggler_step_some hcb]
      have hupd : acc.regions.map (fun p => if p.1 == best then (p.1, p.2 ++ [uid]) else p) =
          pre ++ (best, v ++ [uid]) :: post := by
        rw [hsplit]
        exact map_update_unique pre post v best uid hpre' hpost'
      rw [hupd]
      apply ih
      · exact hnd'.2
      · intro u hu
        simp only [List.mem_cons, not_or]
        exact ⟨fun he => hnd'.1 (he ▸ hu), hdisj u (List.mem_cons_of_mem _ hu)⟩
      · exact List.nodup_cons.2 ⟨huid, hA⟩
      · show (((pre ++ (best, v ++ [uid]) :: post).map (·.2)).flatten).Perm (uid :: acc.assigned)
        have hflat : ((pre ++ (best, v ++ [uid]) :: post).map (·.2)).flatten =
            ((pre.map (·.2)).flatten ++ v) ++ uid :: (post.map (·.2)).flatten := by
          rw [List.map_append, List.flatten_append, List.map_cons, List.flatten_cons]
          simp [List.append_assoc]
        rw [hflat]
        have hold : ((acc.regions.map (·.2)).flatten) =
            ((pre.map (·.2)).flatten ++ v) ++ (post.map (·.2)).flatten := by
          rw [hsplit, List.map_append, List.flatten_append, List.map_cons, List.flatten_cons]
          simp [List.append_assoc]
        have hP' := hP
        rw [hold] at hP'
        exact List.perm_middle.trans (hP'.cons uid)
      · show ((pre ++ (best, v ++ [uid]) :: post).map (·.1)).Nodup
        rw [List.map_append, List.map_cons]
        rw [List.nodup_append]
        exact ⟨hkeys.1, hkeys.2.1, hkeys.2.2⟩

theorem straggler_fold_assigned_mem (counts : Counts) (m : IdByName) :
    ∀ (l : List Nat) (acc : MergeAcc) (u : Nat),
      (u ∈ l ∨ u ∈ acc.assigned) → u ∈ (l.foldl (straggler_step counts m) acc).assigned := by
  intro l
  induction l with
  | nil =>
    intro acc u h
    rcases h with h | h
    · simp at h
    · exact h
  | cons x rest ih =>
    intro acc u h
    rw [List.foldl_cons]
    apply ih
    rcases h with h1 | h1
    · rcases List.mem_cons.1 h1 with h2 | h2
      · right
        rw [straggler_step_assigned, h2]
        exact List.mem_cons_self _ _
      · left
        exact h2
    · right
      rw [straggler_step_assigned]
      exact List.mem_cons_of_mem _ h1

theorem balanced_merge_acc_inv (counts : Counts) (adj : Adjacency) (m : IdByName)
    (min_tx : Nat) (hvals : (m.map (·.2)).Nodup)
    (hlabels : (m.map (fun p => region_label p.1)).Nodup) :
    (balanced_merge_acc counts adj m min_tx).assigned.Nodup ∧
      (((balanced_merge_acc counts adj m min_tx).regions.map (·.2)).flatten).Perm
        (balanced_merge_acc counts adj m min_tx).assigned ∧
      ((balanced_merge_acc counts adj m min_tx).regions.map (·.1)).Nodup := by
  have hg := greedy_phase_inv counts adj m min_tx hlabels
  unfold balanced_merge_acc straggler_phase
  apply straggler_fold_inv
  · exact hvals.filter _
  · intro u hu
    have := List.mem_filter.1 hu
    simpa using this.2
  · exact hg.1
  · exact hg.2.1
  · exact hg.2.2

theorem balanced_merge_assigned_cover (counts : Counts) (adj : Adjacency) (m : IdByName)
    (min_tx : Nat) (uid : Nat) (h : uid ∈ m.map (·.2)) :
    uid ∈ (balanced_merge_acc counts adj m min_tx).assigned := by
  unfold balanced_merge_acc straggler_phase
  apply straggler_fold_assigned_mem
  by_cases ha : uid ∈ (greedy_phase counts adj m min_tx).assigned
  · right
    exact ha
  · left
    refine List.mem_filter.2 ⟨h, ?_⟩
    simpa using ha

theorem isSome_dictGet?_dictSet {α : Type} (d : List (String × α)) (k : String) (v : α)
    (k' : String) (h : (dictGet? d k').isSome = true) :
    (dictGet? (dictSet d k v) k').isSome = true := by
  by_cases he : k' = k
  · rw [he, dictGet?_dictSet_self]
    rfl
  · rw [dictGet?_dictSet_ne _ _ _ _ he]
    exact h

theorem build_out_inner_mono (m : IdByName) (lab n : String) :
    ∀ (ms : List Nat) (out : List (String × String)),
      (dictGet? out n).isSome = true →
      (dictGet? (ms.foldl
        (fun out uid =>
          match name_by_id_last m uid with
          | some uname => if uname == "" then out else dictSet out uname lab
          | none => out) out) n).isSome = true := by
  intro ms
  induction ms with
  | nil => intro out h; exact h
  | cons x rest ih =>
    intro out h
    rw [List.foldl_cons]
    apply ih
    cases hx : name_by_id_last m x with
    | none => exact h
    | some un =>
      show (dictGet? (if (un == "") = true then out else dictSet out un lab) n).isSome = true
      by_cases hu : (un == "") = true
      · rw [if_pos hu]
        exact h
      · rw [if_neg hu]
        exact isSome_dictGet?_dictSet out un lab n h

theorem build_out_inner_hit (m : IdByName) (lab n : String) (uid : Nat)
    (hn : name_by_id_last m uid = some n) (hne : (n == "") = false) :
    ∀ (ms : List Nat) (out : List (String × String)), uid ∈ ms →
      (dictGet? (ms.foldl
        (fun out uid =>
          match name_by_id_last m uid with
          | some uname => if uname == "" then out else dictSet out uname lab
          | none => out) out) n).isSome = true := by
  intro ms
  induction ms with
  | nil =>
    intro out h
    simp at h
  | cons x rest ih =>
    intro out h
    rw [List.foldl_cons]
    rcases List.mem_cons.1 h with h1 | h1
    · apply build_out_inner_mono
      rw [← h1, hn]
      show (dictGet? (if (n == "") = true then out else dictSet out n lab) n).isSome = true
      rw [if_neg (by rw [hne]; simp), dictGet?_dictSet_self]
      rfl
    · exact ih _ h1

theorem build_out_outer_mono (m : IdByName) (n : String) :
    ∀ (rs : List (String × List Nat)) (out : List (String × String)),
      (dictGet? out n).isSome = true →
      (dictGet? (rs.foldl
        (fun out p => p.2.foldl
          (fun out uid =>
            match name_by_id_last m uid with
            | some uname => if uname == "" then out else dictSet out uname p.1
            | none => out) out) out) n).isSome = true := by
  intro rs
  induction rs with
  | nil => intro out h; exact h
  | cons p rest ih =>
    intro out h
    rw [List.foldl_cons]
    exact ih _ (build_out_inner_mono m p.1 n p.2 out h)

theorem build_out_isSome (m : IdByName) (regions : List (String × List Nat))
    (l0 : String) (ms : List Nat) (uid : Nat) (n : String)
    (hmem : (l0, ms) ∈ regions) (huid : uid ∈ ms)
    (hn : name_by_id_last m uid = some n) (hne : (n == "") = false) :
    (dictGet? (build_out m regions) n).isSome = true := by
  obtain ⟨rpre, rpost, hsplit⟩ := List.append_of_mem hmem
  unfold build_out
  rw [hsplit, List.foldl_append, List.foldl_cons]
  apply build_out_outer_mono
  exact build_out_inner_hit m l0 n uid hn hne ms _ huid

theorem find?_eq_some_of_unique {α : Type} (p : α → Bool) :
    ∀ (l : List α) (a : α), a ∈ l → p a = true → (∀ b ∈ l, p b = true → b = a) →
      l.find? p = some a := by
  intro l
  induction l with
  | nil =>
    intro a ha _ _
    simp at ha
  | cons x rest ih =>
    intro a ha hpa huniq
    by_cases hx : p x = true
    · rw [List.find?_cons_of_pos _ hx, huniq x (List.mem_cons_self _ _) hx]
    · rw [List.find?_cons_of_neg _ hx]
      rcases List.mem_cons.1 ha with h1 | h1
      · rw [h1] at hpa
        exact absurd hpa hx
      · exact ih a h1 hpa (fun b hb => huniq b (List.mem_cons_of_mem _ hb))

theorem name_by_id_last_eq (m : IdByName) (n : String) (uid : Nat)
    (hvals : (m.map (·.2)).Nodup) (hm : (n, uid) ∈ m) :
    name_by_id_last m uid = some n := by
  unfold name_by_id_last
  have huniq : ∀ q ∈ m.reverse, (q.2 == uid) = true → q = (n, uid) := by
    intro q hq hqe
    have hq2 : q.2 = uid := by simpa using hqe
    exact List.inj_on_of_nodup_map hvals (List.mem_reverse.1 hq) hm (by simpa using hq2)
  rw [find?_eq_some_of_unique _ m.reverse (n, uid) (List.mem_reverse.2 hm) (by simp) huniq]
  rfl

/-- C2 as amended: for every input whose `id_by_name` table maps distinct
names to distinct ids (with non-empty names and distinct region labels — all
automatic for the tables built from the geometry loaders, whose ids are
distinct and names non-empty), every name of `id_by_name` appears as a key of
the mapping returned by `_balanced_merge`, and its unit id occurs in exactly
one region's member list, exactly once.  Without injectivity the claim fails
(see the counterexample): a duplicated id makes the final inversion drop one
name and the straggler pass insert the id twice. -/
theorem C2_coverage_of_injective (counts : Counts) (adj : Adjacency) (m : IdByName)
    (min_tx : Nat)
    (hvals : (m.map (·.2)).Nodup)
    (hlabels : (m.map (fun p => region_label p.1)).Nodup)
    (hne : ∀ p ∈ m, p.1 ≠ "") :
    ∀ p ∈ m,
      (∃ lab, dictGet? (balanced_merge counts adj m min_tx) p.1 = some lab) ∧
      ((balanced_merge_acc counts adj m min_tx).regions.map
        (fun r => r.2.count p.2)).sum = 1 := by
  intro p hp
  obtain ⟨n, uid⟩ := p
  have hinv := balanced_merge_acc_inv counts adj m min_tx hvals hlabels
  have hcover : uid ∈ (balanced_merge_acc counts adj m min_tx).assigned :=
    balanced_merge_assigned_cover counts adj m min_tx uid
      (by simpa using List.mem_map_of_mem (·.2) hp)
  have hcount1 : (((balanced_merge_acc counts adj m min_tx).regions.map (·.2)).flatten).count
      uid = 1 := by
    rw [hinv.2.1.count_eq]
    exact List.count_eq_one_of_mem hinv.1 hcover
  have hsum : ((balanced_merge_acc counts adj m min_tx).regions.map
      (fun r => r.2.count uid)).sum = 1 := by
    rw [← hcount1, List.count_flatten, List.map_map]
    rfl
  refine ⟨?_, hsum⟩
  have hmemflat : uid ∈ ((balanced_merge_acc counts adj m min_tx).regions.map (·.2)).flatten := by
    have : 0 < (((balanced_merge_acc counts adj m min_tx).regions.map (·.2)).flatten).count
        uid := by
      rw [hcount1]
      exact Nat.one_pos
    exact List.count_pos_iff.1 this
  obtain ⟨ms, hms, huidms⟩ := List.mem_flatten.1 hmemflat
  obtain ⟨q, hq, hqe⟩ := List.mem_map.1 hms
  have hlast : name_by_id_last m uid = some n := name_by_id_last_eq m n uid hvals hp
  have hneq : (n == "") = false := by
    simpa using hne (n, uid) hp
  have hsome : (dictGet? (balanced_merge counts adj m min_tx) n).isSome = true := by
    unfold balanced_merge
    refine build_out_isSome m _ q.1 ms uid n ?_ huidms hlast hneq
    have : q = (q.1, ms) := by
      rw [← hqe]
    rw [← this]
    exact hq
  obtain ⟨lab, hlab⟩ := Option.isSome_iff_exists.1 hsome
  exact ⟨lab, hlab⟩

/-- C2 counterexample: with `id_by_name = {"A": 1, "B": 1}` (two names sharing
one id — a well-formed Python dict), empty counts and adjacency and threshold
1, the straggler pass appends id 1 twice to the same region (since
`remaining` is computed once, before the loop), and the final inversion
`{v: k for k, v in id_by_name.items()}` keeps only "B" — so "A", although
present in `id_by_name`, is not a key of the returned mapping, and id 1
occurs twice in a member list. -/
theorem C2_coverage_cex :
    dictGet? (balanced_merge [] [] [("A", 1), ("B", 1)] 1) "A" = none ∧
    (balanced_merge_acc [] [] [("A", 1), ("B", 1)] 1).regions =
      [("região: a", [1, 1])] ∧
    ("A", 1) ∈ ([("A", 1), ("B", 1)] : IdByName) ∧
    (([("A", 1), ("B", 1)] : IdByName).map (·.1)).Nodup := by
  refine ⟨by decide, by decide, by decide, by decide⟩

theorem C2_coverage_witness :
    (∃ lab, dictGet? (balanced_merge c5counts c5adj c5idm 200) "A" = some lab) ∧
    ((balanced_merge_acc c5counts c5adj c5idm 200).regions.map
      (fun r => r.2.count 1)).sum = 1 :=
  C2_coverage_of_injective c5counts c5adj c5idm 200 (by decide) (by decide)
    (by decide) ("A", 1) (by decide)

/-! ### Sufficiency of the growth-loop fuel

The fuel `frontier.length + adjSize adj + 1` chosen by `greedy_unit`
dominates every possible run of the `while` loop, so the fuelled `growLoop`
always stops because the loop guard fails, exactly like the Python loop. -/

theorem unvisitedAdjSize_mono (adj : Adjacency) (x : Nat) (visited : List Nat) :
    unvisitedAdjSize adj (x :: visited) ≤ unvisitedAdjSize adj visited := by
  unfold unvisitedAdjSize
  refine List.Sublist.sum_le_sum (List.Sublist.map _ ?_) (fun a _ => Nat.zero_le a)
  refine List.monotone_filter_right adj ?_
  intro p hp
  simp only [Bool.not_eq_true', List.contains_cons, Bool.or_eq_false_iff] at hp
  simpa using hp.2

theorem unvisitedAdjSize_drop (adj : Adjacency) (nid : Nat) :
    ∀ visited : List Nat, visited.contains nid = false →
      unvisitedAdjSize adj (nid :: visited) + (adjOf adj nid).length ≤
        unvisitedAdjSize adj visited := by
  induction adj with
  | nil =>
    intro visited _
    simp [unvisitedAdjSize, adjOf]
  | cons p rest ih =>
    intro visited h
    by_cases hp : p.1 = nid
    · have hadj : adjOf (p :: rest) nid = p.2 := by
        unfold adjOf
        rw [List.find?_cons_of_pos _ (by simpa using hp)]
        rfl
      have hc1 : (nid :: visited).contains p.1 = true := by
        rw [List.contains_cons]
        simp [hp]
      have hc2 : visited.contains p.1 = false := by
        rw [hp]
        exact h
      unfold unvisitedAdjSize
      rw [List.filter_cons, List.filter_cons, hc1, hc2, hadj]
      simp only [Bool.not_true, Bool.not_false]
      rw [if_neg (by simp), if_pos (by trivial)]
      simp only [List.map_cons, List.sum_cons]
      have hmono := unvisitedAdjSize_mono rest nid visited
      unfold unvisitedAdjSize at hmono
      omega
    · have hadj : adjOf (p :: rest) nid = adjOf rest nid := by
        unfold adjOf
        rw [List.find?_cons_of_neg _ (by simpa using hp)]
      have hcEq : (nid :: visited).contains p.1 = visited.contains p.1 := by
        rw [List.contains_cons]
        have hx : (p.1 == nid) = false := by simpa using hp
        rw [hx]
        simp
      unfold unvisitedAdjSize
      rw [List.filter_cons, List.filter_cons, hcEq, hadj]
      by_cases hv : visited.contains p.1 = true
      · rw [hv]
        simp only [Bool.not_true]
        rw [if_neg (by simp), if_neg (by simp)]
        have hrec := ih visited h
        unfold unvisitedAdjSize at hrec
        exact hrec
      · have hv2 : visited.contains p.1 = false := by simpa using hv
        rw [hv2]
        simp only [Bool.not_false]
        rw [if_pos (by trivial), if_pos (by trivial)]
        simp only [List.map_cons, List.sum_cons]
        have hrec := ih visited h
        unfold unvisitedAdjSize at hrec
        omega

theorem unvisitedAdjSize_le_adjSize (adj : Adjacency) (visited : List Nat) :
    unvisitedAdjSize adj visited ≤ adjSize adj := by
  unfold unvisitedAdjSize adjSize
  exact List.Sublist.sum_le_sum (List.Sublist.map _ (List.filter_sublist adj))
    (fun a _ => Nat.zero_le a)

theorem growStep_potential (counts : Counts) (adj : Adjacency) (m : IdByName)
    (s : GrowState) (hne : s.frontier ≠ []) :
    (growStep counts adj m s).frontier.length +
      unvisitedAdjSize adj (growStep counts adj m s).visited + 1 ≤
      s.frontier.length + unvisitedAdjSize adj s.visited := by
  cases hf : s.frontier with
  | nil => exact absurd hf hne
  | cons nid rest =>
    by_cases hv : (s.visited.contains nid || s.assigned.contains nid) = true
    · rw [growStep_skip hf hv]
      show rest.length + unvisitedAdjSize adj (nid :: s.visited) + 1 ≤ _
      rw [List.length_cons]
      have hmono := unvisitedAdjSize_mono adj nid s.visited
      omega
    · have hvis : s.visited.contains nid = false := by
        simp only [Bool.or_eq_true, not_or] at hv
        simpa using hv.1
      rw [growStep_add hf (by simpa using hv)]
      show (rest ++ sortByCount counts m
          ((adjOf adj nid).filter
            (fun x => !(nid :: s.visited).contains x &&
              !(nid :: s.assigned).contains x))).length +
          unvisitedAdjSize adj (nid :: s.visited) + 1 ≤ _
      rw [List.length_append, List.length_cons]
      have hlen : (sortByCount counts m
          ((adjOf adj nid).filter
            (fun x => !(nid :: s.visited).contains x &&
              !(nid :: s.assigned).contains x))).length ≤ (adjOf adj nid).length := by
        unfold sortByCount
        rw [List.length_insertionSort]
        exact List.length_filter_le _ _
      have hdrop := unvisitedAdjSize_drop adj nid s.visited hvis
      omega

theorem growLoop_reaches (counts : Counts) (adj : Adjacency) (m : IdByName) (min_tx : Nat) :
    ∀ (fuel : Nat) (s : GrowState),
      s.frontier.length + unvisitedAdjSize adj s.visited < fuel →
      ¬((growLoop counts adj m min_tx fuel s).total < min_tx ∧
        (growLoop counts adj m min_tx fuel s).frontier ≠ []) := by
  intro fuel
  induction fuel with
  | zero =>
    intro s h
    exact absurd h (by omega)
  | succ k ih =>
    intro s h
    unfold growLoop
    by_cases hc : s.total < min_tx ∧ s.frontier ≠ []
    · rw [if_pos hc]
      apply ih
      have := growStep_potential counts adj m s hc.2
      omega
    · rw [if_neg hc]
      exact hc

/-- The fuel chosen in `greedy_unit` always suffices: the fuelled growth loop
stops only because the Python loop guard `total < min_tx_per_region and
frontier` fails, never because the fuel runs out, so the embedding computes
exactly what the unbounded `while` loop computes. -/
theorem growLoop_fuel_sufficient (counts : Counts) (adj : Adjacency) (m : IdByName)
    (min_tx : Nat) (s0 : GrowState) :
    ¬((growLoop counts adj m min_tx (s0.frontier.length + adjSize adj + 1) s0).total < min_tx ∧
      (growLoop counts adj m min_tx (s0.frontier.length + adjSize adj + 1) s0).frontier ≠ []) := by
  apply growLoop_reaches
  have := unvisitedAdjSize_le_adjSize adj s0.visited
  omega

end GeoClustering
